import Mathlib

/-!
# chess-lang: a shallow embedding of `main.cpp`

The C++ program keeps an 8x8 board of pieces and a stack of move records, and
interprets the line commands `move from X to Y`, `undo` and `check`.

Modelling conventions.

* `Piece board[8][8]` is a total function `Fin 8 → Fin 8 → Piece`.  The program
  indexes it with `int`s; an index outside `0..7` is undefined behaviour in C++
  and is modelled by the result `none`.
* `std::string` is a Lean `String`; `pos[i]` is the code of the `i`-th character
  (`0` past the end).  Whenever both computed indices are inside `0..7` the
  two leading characters are ASCII, so characters and bytes coincide there.
* `stack<pair<string,string>>` is a list whose head is the top of the stack.
* Text written to `cout` is returned as a `String` next to the new state.
-/

namespace ChessLang

/-- The enumeration `enum Piece`. -/
inductive Piece
  | EMPTY | KNIGHT | QUEEN | KING | PAWN | ROOK | BISHOP
  deriving DecidableEq, Repr

/-- The array `Piece board[8][8]`, addressed by (row, column). -/
abbrev Grid := Fin 8 → Fin 8 → Piece

/-- The private members of `class ChessBoard`: the grid and the move stack (top first). -/
structure ChessBoard where
  board : Grid
  moveHistory : List (String × String)

/-- Numeric code of a character, as an `int`. -/
def code (c : Char) : Int := (c.toNat : Int)

/-- The expression `pos[i]` promoted to `int`; reading past the last character gives `0`. -/
def charAt (pos : String) (i : Nat) : Int :=
  match pos.toList.get? i with
  | some c => code c
  | none => 0

/-- Method `ChessBoard::positionToIndices`: `row = 8 - (pos[1] - '0')`, `col = pos[0] - 'a'`. -/
def positionToIndices (pos : String) : Int × Int :=
  (8 - (charAt pos 1 - code '0'), charAt pos 0 - code 'a')

/-- Turns a pair of `int` subscripts into a cell of the array, when both lie in `0..7`. -/
def index (r c : Int) : Option (Fin 8 × Fin 8) :=
  if h : 0 ≤ r ∧ r < 8 ∧ 0 ≤ c ∧ c < 8 then
    some (⟨r.toNat, by omega⟩, ⟨c.toNat, by omega⟩)
  else none

/-- The grid with one cell overwritten. -/
def Grid.set (g : Grid) (cell : Fin 8 × Fin 8) (p : Piece) : Grid :=
  fun i j => if i = cell.1 ∧ j = cell.2 then p else g i j

/-- Reading `board[r][c]`; `none` when a subscript is out of range. -/
def Grid.read (g : Grid) (r c : Int) : Option Piece :=
  match index r c with
  | some cell => some (g cell.1 cell.2)
  | none => none

/-- The assignment `board[r][c] = p`; `none` when a subscript is out of range. -/
def Grid.write (g : Grid) (r c : Int) (p : Piece) : Option Grid :=
  match index r c with
  | some cell => some (g.set cell p)
  | none => none

/-- The grid after the two nested loops of the constructor: every cell `EMPTY`. -/
def emptyGrid : Grid := fun _ _ => Piece.EMPTY

/-- The constructor `ChessBoard::ChessBoard()`. -/
def ChessBoard.init : ChessBoard where
  board := ((emptyGrid.set (0, 1) Piece.KNIGHT).set (6, 3) Piece.KING).set (7, 2) Piece.QUEEN
  moveHistory := []

/-- Method `ChessBoard::movePiece`: the new state and the line printed. -/
def movePiece (s : ChessBoard) (start endp : String) : Option (ChessBoard × String) :=
  let (startRow, startCol) := positionToIndices start
  let (endRow, endCol) := positionToIndices endp
  match s.board.read startRow startCol with
  | none => none
  | some p =>
    if p ≠ Piece.EMPTY then
      match s.board.write endRow endCol p with
      | none => none
      | some b1 =>
        match b1.write startRow startCol Piece.EMPTY with
        | none => none
        | some b2 =>
          some (⟨b2, (start, endp) :: s.moveHistory⟩,
            "Moved from " ++ start ++ " to " ++ endp ++ "\n")
    else
      some (s, "No piece at " ++ start ++ "\n")

/-- Method `ChessBoard::undoMove`: the new state and the line printed. -/
def undoMove (s : ChessBoard) : Option (ChessBoard × String) :=
  match s.moveHistory with
  | [] => some (s, "No moves to undo.\n")
  | lastMove :: rest =>
    let (startRow, startCol) := positionToIndices lastMove.1
    let (endRow, endCol) := positionToIndices lastMove.2
    match s.board.read endRow endCol with
    | none => none
    | some p =>
      match s.board.write startRow startCol p with
      | none => none
      | some b1 =>
        match b1.write endRow endCol Piece.EMPTY with
        | none => none
        | some b2 =>
          some (⟨b2, rest⟩,
            "Undid move from " ++ lastMove.2 ++ " back to " ++ lastMove.1 ++ "\n")

/-- The first pair of loops of `isKingInCheck`: `kingRow`, `kingCol` are overwritten at every
cell holding `KING`; `none` stands for the two variables still being uninitialised. -/
def findKing (g : Grid) : Option (Int × Int) :=
  (List.range 8).foldl (fun acc i =>
    (List.range 8).foldl (fun acc j =>
      if g.read i j = some Piece.KING then some ((i : Int), (j : Int)) else acc) acc) none

/-- The loop over `i` in `0..7` testing the King's row and column. -/
def rankFileThreat (g : Grid) (kingRow kingCol : Int) : Bool :=
  (List.range 8).any fun n =>
    let i : Int := n
    (g.read kingRow i == some Piece.QUEEN
      || (g.read kingRow i == some Piece.ROOK && i != kingCol))
    || (g.read i kingCol == some Piece.QUEEN
      || (g.read i kingCol == some Piece.ROOK && i != kingRow))

/-- The loop over `d` in `1..7` testing the four diagonals. -/
def diagonalThreat (g : Grid) (kingRow kingCol : Int) : Bool :=
  (List.range' 1 7).any fun n =>
    let d : Int := n
    (decide (kingRow - d ≥ 0) && decide (kingCol - d ≥ 0)
      && (g.read (kingRow - d) (kingCol - d) == some Piece.QUEEN
        || g.read (kingRow - d) (kingCol - d) == some Piece.BISHOP))
    || (decide (kingRow - d ≥ 0) && decide (kingCol + d < 8)
      && (g.read (kingRow - d) (kingCol + d) == some Piece.QUEEN
        || g.read (kingRow - d) (kingCol + d) == some Piece.BISHOP))
    || (decide (kingRow + d < 8) && decide (kingCol - d ≥ 0)
      && (g.read (kingRow + d) (kingCol - d) == some Piece.QUEEN
        || g.read (kingRow + d) (kingCol - d) == some Piece.BISHOP))
    || (decide (kingRow + d < 8) && decide (kingCol + d < 8)
      && (g.read (kingRow + d) (kingCol + d) == some Piece.QUEEN
        || g.read (kingRow + d) (kingCol + d) == some Piece.BISHOP))

/-- The table `knightMoves[8][2]`. -/
def knightMoves : List (Int × Int) :=
  [(2, 1), (2, -1), (-2, 1), (-2, -1), (1, 2), (1, -2), (-1, 2), (-1, -2)]

/-- The loop over `knightMoves`. -/
def knightThreat (g : Grid) (kingRow kingCol : Int) : Bool :=
  knightMoves.any fun move =>
    let row := kingRow + move.1
    let col := kingCol + move.2
    decide (row ≥ 0) && decide (row < 8) && decide (col ≥ 0) && decide (col < 8)
      && g.read row col == some Piece.KNIGHT

/-- The three threat loops run one after the other, each returning `true` at its first hit. -/
def threatTests (g : Grid) (kingRow kingCol : Int) : Bool :=
  rankFileThreat g kingRow kingCol || diagonalThreat g kingRow kingCol
    || knightThreat g kingRow kingCol

/-- Method `ChessBoard::isKingInCheck`; `none` when no cell holds `KING`, since the threat loops then
read the uninitialised `kingRow` and `kingCol`. -/
def isKingInCheck (s : ChessBoard) : Option Bool :=
  match findKing s.board with
  | none => none
  | some (kingRow, kingCol) => some (threatTests s.board kingRow kingCol)

/-- The character class `isspace` of the "C" locale, which `operator>>` uses as delimiter. -/
def isspace (c : Char) : Bool :=
  c = ' ' || c = '\t' || c = '\n' || c = Char.ofNat 11 || c = Char.ofNat 12 || c = '\r'

/-- One `stream >> token`: skip leading whitespace, then take characters up to the next
whitespace or the end.  The result is the token and the rest of the stream; `none` when the
stream ends before any character is extracted (the stream then tests false). -/
def extract (stream : List Char) : Option (List Char × List Char) :=
  match stream.dropWhile isspace with
  | [] => none
  | c :: cs =>
    some ((c :: cs).takeWhile (fun x => !isspace x), (c :: cs).dropWhile (fun x => !isspace x))

/-- The `while (stream >> token)` loop of `Lexer::tokenize`, with the tokens pushed so far.
Every round extracts at least one character, so `fuel` bounds the number of rounds. -/
def tokenizeLoop : Nat → List Char → List String → List String
  | 0, _, tokens => tokens
  | fuel + 1, stream, tokens =>
    match extract stream with
    | none => tokens
    | some (token, rest) =>
      if token.head? ≠ some '#' then
        tokenizeLoop fuel rest (tokens ++ [String.mk token])
      else
        tokens

/-- Method `Lexer::tokenize`. -/
def tokenize (input : String) : List String :=
  tokenizeLoop (input.length + 1) input.toList []

/-- The three concrete subclasses of `ASTNode`. -/
inductive ASTNode
  | MoveNode (start endp : String)
  | UndoNode
  | CheckNode
  deriving DecidableEq, Repr

/-- Method `Parser::parse`: the node (`none` for `nullptr`) and the text printed. -/
def parse (tokens : List String) : Option ASTNode × String :=
  if tokens.isEmpty then
    (none, "")
  else if tokens.get? 0 = some "move" ∧ tokens.length = 5 ∧ tokens.get? 1 = some "from"
      ∧ tokens.get? 3 = some "to" then
    (some (ASTNode.MoveNode (tokens.getD 2 "") (tokens.getD 4 "")), "")
  else if tokens.get? 0 = some "undo" then
    (some ASTNode.UndoNode, "")
  else if tokens.get? 0 = some "check" then
    (some ASTNode.CheckNode, "")
  else
    (none, "Invalid command!\n")

/-- The virtual method `ASTNode::execute` of the three node classes. -/
def ASTNode.execute : ASTNode → ChessBoard → Option (ChessBoard × String)
  | ASTNode.MoveNode start endp, board => movePiece board start endp
  | ASTNode.UndoNode, board => undoMove board
  | ASTNode.CheckNode, board =>
    match isKingInCheck board with
    | none => none
    | some true => some (board, "King is in check!\n")
    | some false => some (board, "King is safe.\n")

/-- Method `Interpreter::interpret`: the board afterwards and everything printed. -/
def interpret (command : String) (board : ChessBoard) : Option (ChessBoard × String) :=
  match parse (tokenize command) with
  | (none, out) => some (board, out)
  | (some node, out) =>
    match node.execute board with
    | none => none
    | some (board1, out1) => some (board1, out ++ out1)

/-! ## Vocabulary of the specification -/

/-- An algebraic position: exactly two characters, a file `a..h` followed by a rank `1..8`. -/
def isValidPosition (pos : String) : Bool :=
  match pos.toList with
  | [f, r] =>
    decide (code 'a' ≤ code f) && decide (code f ≤ code 'h')
      && decide (code '1' ≤ code r) && decide (code r ≤ code '8')
  | _ => false

/-- The cell of the array that a position string designates, through `positionToIndices`. -/
def cellOf (pos : String) : Option (Fin 8 × Fin 8) :=
  index (positionToIndices pos).1 (positionToIndices pos).2

/-- The content of the cell that a position string designates. -/
def pieceAt (s : ChessBoard) (pos : String) : Option Piece :=
  s.board.read (positionToIndices pos).1 (positionToIndices pos).2

/-- One round of the King search at the cell numbered `n` in row-major order. -/
def kingStep (g : Grid) (acc : Option (Int × Int)) (n : Nat) : Option (Int × Int) :=
  if g.read ((n / 8 : Nat) : Int) ((n % 8 : Nat) : Int) = some Piece.KING then
    some (((n / 8 : Nat) : Int), ((n % 8 : Nat) : Int))
  else acc

/-- The knight offsets of the specification: (±2, ±1) and (±1, ±2). -/
def isKnightOffset (dr dc : Int) : Prop :=
  ((dr = 2 ∨ dr = -2) ∧ (dc = 1 ∨ dc = -1)) ∨ ((dr = 1 ∨ dr = -1) ∧ (dc = 2 ∨ dc = -2))

/-- A Queen or a Rook stands somewhere on row `kr` or on column `kc`. -/
def rankFileAttack (g : Grid) (kr kc : Fin 8) : Prop :=
  (∃ j : Fin 8, g kr j = Piece.QUEEN ∨ g kr j = Piece.ROOK)
    ∨ (∃ i : Fin 8, g i kc = Piece.QUEEN ∨ g i kc = Piece.ROOK)

/-- A Queen or a Bishop stands on a cell `(kr ± d, kc ± d)` of the grid for some `d` in `1..7`. -/
def diagonalAttack (g : Grid) (kr kc : Fin 8) : Prop :=
  ∃ d : Int, 1 ≤ d ∧ d ≤ 7 ∧ ∃ i j : Fin 8,
    ((i : Int) = kr + d ∨ (i : Int) = kr - d) ∧ ((j : Int) = kc + d ∨ (j : Int) = kc - d)
      ∧ (g i j = Piece.QUEEN ∨ g i j = Piece.BISHOP)

/-- A Knight stands on a cell of the grid at a knight offset from `(kr, kc)`. -/
def knightAttack (g : Grid) (kr kc : Fin 8) : Prop :=
  ∃ i j : Fin 8, isKnightOffset ((i : Int) - kr) ((j : Int) - kc) ∧ g i j = Piece.KNIGHT

/-- The three threat families of the specification, taken together. -/
def attacked (g : Grid) (kr kc : Fin 8) : Prop :=
  rankFileAttack g kr kc ∨ diagonalAttack g kr kc ∨ knightAttack g kr kc

/-- Cell `x` lies strictly between the cells `k` and `t` on a common row, column or diagonal:
`t` is `n` steps from `k` in one of the eight directions and `x` is `m` steps, `0 < m < n`. -/
def between (k t x : Fin 8 × Fin 8) : Prop :=
  ∃ dr dc m n : Int, -1 ≤ dr ∧ dr ≤ 1 ∧ -1 ≤ dc ∧ dc ≤ 1 ∧ (dr ≠ 0 ∨ dc ≠ 0) ∧ 0 < m ∧ m < n
    ∧ (t.1 : Int) = k.1 + n * dr ∧ (t.2 : Int) = k.2 + n * dc
    ∧ (x.1 : Int) = k.1 + m * dr ∧ (x.2 : Int) = k.2 + m * dc

/-- The cell `t` holds a sliding piece that threatens the King at `(kr, kc)`: a Queen or a Rook
on the King's row or column, or a Queen or a Bishop on one of its diagonals. -/
def slidingThreatAt (g : Grid) (kr kc : Fin 8) (t : Fin 8 × Fin 8) : Prop :=
  ((t.1 = kr ∨ t.2 = kc) ∧ (g t.1 t.2 = Piece.QUEEN ∨ g t.1 t.2 = Piece.ROOK))
    ∨ ((∃ d : Int, 1 ≤ d ∧ d ≤ 7 ∧ ((t.1 : Int) = kr + d ∨ (t.1 : Int) = kr - d)
          ∧ ((t.2 : Int) = kc + d ∨ (t.2 : Int) = kc - d))
        ∧ (g t.1 t.2 = Piece.QUEEN ∨ g t.1 t.2 = Piece.BISHOP))

/-! ## Sample boards -/

/-- A board with the King on d2, a Queen on h2 and a Pawn on f2 between them. -/
def screenedBoard : ChessBoard where
  board := ((emptyGrid.set (6, 3) Piece.KING).set (6, 7) Piece.QUEEN).set (6, 5) Piece.PAWN
  moveHistory := []

/-- A board with only a King on d2 and a Knight on e4, two rows up and one column right. -/
def knightBoard : ChessBoard where
  board := (emptyGrid.set (6, 3) Piece.KING).set (4, 4) Piece.KNIGHT
  moveHistory := []

/-- A board with two Kings, on a8 and h1, and a Knight on b6. -/
def twoKings : ChessBoard where
  board := ((emptyGrid.set (0, 0) Piece.KING).set (2, 1) Piece.KNIGHT).set (7, 7) Piece.KING
  moveHistory := []

/-! ## Vocabulary of the specification: tokens, positions, variants, counts -/

/-- The maximal whitespace-delimited non-empty words of a line, in order: the line is split at
every whitespace character and the empty pieces are dropped. -/
def wordsOf (line : List Char) : List (List Char) :=
  (line.splitOnP isspace).filter fun w => !w.isEmpty

/-- The token sequence as the specification words it: the words of the line, cut just before
the first word whose first character is `#`. -/
def specTokens (line : String) : List String :=
  ((wordsOf line.toList).takeWhile fun w => w.head? != some '#').map String.mk

/-- The conversion back from a cell to a position named by the specification:
`file = 'a' + col`, `rank = 8 - row`.  The program has no such function. -/
def indicesToPosition (cell : Fin 8 × Fin 8) : String :=
  String.mk [Char.ofNat ('a'.toNat + cell.2.val), Char.ofNat ('0'.toNat + (8 - cell.1.val))]

/-- The rank/file loop with the guards `i != kingCol`, `i != kingRow` removed from the Rook
tests. -/
def rankFileThreatNoGuard (g : Grid) (kingRow kingCol : Int) : Bool :=
  (List.range 8).any fun n =>
    let i : Int := n
    (g.read kingRow i == some Piece.QUEEN || g.read kingRow i == some Piece.ROOK)
    || (g.read i kingCol == some Piece.QUEEN || g.read i kingCol == some Piece.ROOK)

/-- The rank/file loop with the guards `i != kingCol`, `i != kingRow` added to the Queen tests
as well. -/
def rankFileThreatBothGuards (g : Grid) (kingRow kingCol : Int) : Bool :=
  (List.range 8).any fun n =>
    let i : Int := n
    ((g.read kingRow i == some Piece.QUEEN && i != kingCol)
      || (g.read kingRow i == some Piece.ROOK && i != kingCol))
    || ((g.read i kingCol == some Piece.QUEEN && i != kingRow)
      || (g.read i kingCol == some Piece.ROOK && i != kingRow))

/-- The method `isKingInCheck` with its rank/file loop replaced by `rankFile`. -/
def isKingInCheckWith (rankFile : Grid → Int → Int → Bool) (s : ChessBoard) : Option Bool :=
  match findKing s.board with
  | none => none
  | some (kingRow, kingCol) =>
    some (rankFile s.board kingRow kingCol || diagonalThreat s.board kingRow kingCol
      || knightThreat s.board kingRow kingCol)

/-- The number of cells of the grid whose content satisfies `P`. -/
def countCells (g : Grid) (P : Piece → Bool) : Nat :=
  (Finset.univ.filter fun cell : Fin 8 × Fin 8 => P (g cell.1 cell.2) = true).card

/-- A `move` command with two valid positions, or an `undo` command. -/
def isValidMoveOrUndo : ASTNode → Bool
  | ASTNode.MoveNode start endp => isValidPosition start && isValidPosition endp
  | ASTNode.UndoNode => true
  | ASTNode.CheckNode => false

/-- Executing a sequence of commands one after the other, as the main loop does with the
lines it reads; `none` as soon as one of them has undefined behaviour. -/
def runCommands : List ASTNode → ChessBoard → Option ChessBoard
  | [], board => some board
  | node :: rest, board =>
    match node.execute board with
    | none => none
    | some (board1, _) => runCommands rest board1

/-! ## Positions and cells -/

theorem code_inj {a b : Char} (h : code a = code b) : a = b := by
  have h1 : a.toNat = b.toNat := by simpa [code] using h
  rw [← Char.ofNat_toNat a, ← Char.ofNat_toNat b, h1]

theorem valid_shape {pos : String} (h : isValidPosition pos = true) :
    ∃ f r : Char, pos = String.mk [f, r] ∧ 97 ≤ code f ∧ code f ≤ 104
      ∧ 49 ≤ code r ∧ code r ≤ 56 := by
  obtain ⟨l⟩ := pos
  match l, h with
  | [f, r], h =>
    refine ⟨f, r, rfl, ?_⟩
    simpa [isValidPosition, code, and_assoc] using h

theorem indices_mk (f r : Char) :
    positionToIndices (String.mk [f, r]) = (8 - (code r - 48), code f - 97) := by
  simp [positionToIndices, charAt, code]

theorem index_eq_some {r c : Int} {cell : Fin 8 × Fin 8} :
    index r c = some cell ↔ (cell.1 : Int) = r ∧ (cell.2 : Int) = c := by
  unfold index
  obtain ⟨i, j⟩ := cell
  split
  · rename_i h
    simp only [Option.some.injEq, Prod.mk.injEq, Fin.ext_iff]
    omega
  · rename_i h
    simp only [false_iff, reduceCtorEq]
    omega

theorem index_fin (i j : Fin 8) : index (i : Int) (j : Int) = some (i, j) :=
  index_eq_some.2 ⟨rfl, rfl⟩

theorem valid_cell {pos : String} (h : isValidPosition pos = true) :
    ∃ cell, cellOf pos = some cell := by
  obtain ⟨f, r, rfl, h1, h2, h3, h4⟩ := valid_shape h
  have hr : 0 ≤ 8 - (code r - 48) ∧ 8 - (code r - 48) < 8 := by omega
  have hc : 0 ≤ code f - 97 ∧ code f - 97 < 8 := by omega
  refine ⟨(⟨(8 - (code r - 48)).toNat, by omega⟩, ⟨(code f - 97).toNat, by omega⟩), ?_⟩
  rw [cellOf, indices_mk, index_eq_some]
  constructor
  · simp only [Int.toNat_of_nonneg hr.1]
  · simp only [Int.toNat_of_nonneg hc.1]

theorem valid_cell_inj {a b : String} (ha : isValidPosition a = true)
    (hb : isValidPosition b = true) (h : cellOf a = cellOf b) : a = b := by
  obtain ⟨f, r, rfl, -⟩ := valid_shape ha
  obtain ⟨f', r', rfl, -⟩ := valid_shape hb
  obtain ⟨cell, hc⟩ := valid_cell ha
  have hc' := h ▸ hc
  rw [cellOf, indices_mk, index_eq_some] at hc hc'
  have e1 : code f = code f' := by omega
  have e2 : code r = code r' := by omega
  rw [code_inj e1, code_inj e2]

theorem pieceAt_of_cell {s : ChessBoard} {pos : String} {cell : Fin 8 × Fin 8}
    (h : cellOf pos = some cell) : pieceAt s pos = some (s.board cell.1 cell.2) := by
  unfold cellOf at h
  simp [pieceAt, Grid.read, h]

theorem set_same (g : Grid) (cell : Fin 8 × Fin 8) (p : Piece) :
    g.set cell p cell.1 cell.2 = p := by
  simp [Grid.set]

theorem set_other (g : Grid) (cell : Fin 8 × Fin 8) (p : Piece) (i j : Fin 8)
    (h : (i, j) ≠ cell) : g.set cell p i j = g i j := by
  obtain ⟨a, b⟩ := cell
  have : ¬ (i = a ∧ j = b) := fun e => h (by rw [e.1, e.2])
  simp [Grid.set, this]

/-- The successful branch of `movePiece`, in terms of cells. -/
theorem movePiece_cells {s : ChessBoard} {start endp : String} {a b : Fin 8 × Fin 8}
    (ha : cellOf start = some a) (hb : cellOf endp = some b)
    (hne : s.board a.1 a.2 ≠ Piece.EMPTY) :
    movePiece s start endp =
      some (⟨((s.board.set b (s.board a.1 a.2)).set a Piece.EMPTY),
              (start, endp) :: s.moveHistory⟩,
            "Moved from " ++ start ++ " to " ++ endp ++ "\n") := by
  unfold cellOf at ha hb
  simp [movePiece, Grid.read, Grid.write, ha, hb, hne]

/-- The empty-source branch of `movePiece`, in terms of cells. -/
theorem movePiece_empty {s : ChessBoard} {start : String} (endp : String) {a : Fin 8 × Fin 8}
    (ha : cellOf start = some a) (he : s.board a.1 a.2 = Piece.EMPTY) :
    movePiece s start endp = some (s, "No piece at " ++ start ++ "\n") := by
  unfold cellOf at ha
  simp [movePiece, Grid.read, ha, he]

/-- The popping branch of `undoMove`, in terms of cells. -/
theorem undoMove_cells {s : ChessBoard} {start endp : String} {rest : List (String × String)}
    {a b : Fin 8 × Fin 8} (hh : s.moveHistory = (start, endp) :: rest)
    (ha : cellOf start = some a) (hb : cellOf endp = some b) :
    undoMove s =
      some (⟨((s.board.set a (s.board b.1 b.2)).set b Piece.EMPTY), rest⟩,
            "Undid move from " ++ endp ++ " back to " ++ start ++ "\n") := by
  unfold cellOf at ha hb
  simp [undoMove, hh, Grid.read, Grid.write, ha, hb]

/-- The early return of `undoMove`. -/
theorem undoMove_empty_hist {s : ChessBoard} (h : s.moveHistory = []) :
    undoMove s = some (s, "No moves to undo.\n") := by
  simp [undoMove, h]

/-! ## Moving and undoing -/

/-- C1: for valid positions A and B with cell A occupied and cell B empty, `movePiece(A, B)`
followed by `undoMove()` both return, the piece is back on A, B is empty, and the whole grid
and the move history are what they were before the move. -/
theorem move_then_undo_restores (s : ChessBoard) (A B : String)
    (hA : isValidPosition A = true) (hB : isValidPosition B = true)
    (hocc : pieceAt s A ≠ some Piece.EMPTY) (hemp : pieceAt s B = some Piece.EMPTY) :
    ∃ s1 out1 s2 out2, movePiece s A B = some (s1, out1) ∧ undoMove s1 = some (s2, out2)
      ∧ pieceAt s2 A = pieceAt s A ∧ pieceAt s2 B = some Piece.EMPTY
      ∧ s2.board = s.board ∧ s2.moveHistory = s.moveHistory := by
  obtain ⟨a, ha⟩ := valid_cell hA
  obtain ⟨b, hb⟩ := valid_cell hB
  rw [pieceAt_of_cell ha] at hocc
  rw [pieceAt_of_cell hb] at hemp
  have hne : s.board a.1 a.2 ≠ Piece.EMPTY := fun e => hocc (by rw [e])
  have hbe : s.board b.1 b.2 = Piece.EMPTY := by simpa using hemp
  have hab : a ≠ b := fun e => hne (e ▸ hbe)
  have hgrid : (((s.board.set b (s.board a.1 a.2)).set a Piece.EMPTY).set a
      (((s.board.set b (s.board a.1 a.2)).set a Piece.EMPTY) b.1 b.2)).set b Piece.EMPTY
      = s.board := by
    funext i j
    by_cases h1 : (i, j) = b
    · subst h1
      simpa [Grid.set] using hbe.symm
    · rw [set_other _ _ _ _ _ h1]
      by_cases h2 : (i, j) = a
      · subst h2
        have h3 : ¬ (b.1 = i ∧ b.2 = j) := fun e => h1 (Prod.ext e.1.symm e.2.symm)
        simp [Grid.set, h3]
      · rw [set_other _ _ _ _ _ h2, set_other _ _ _ _ _ h2, set_other _ _ _ _ _ h1]
  refine ⟨_, _, _, _, movePiece_cells ha hb hne, undoMove_cells rfl ha hb, ?_, ?_, hgrid, rfl⟩
  · rw [pieceAt_of_cell ha, pieceAt_of_cell ha]
    exact congrArg some (congrFun (congrFun hgrid a.1) a.2)
  · rw [pieceAt_of_cell hb]
    exact congrArg some ((congrFun (congrFun hgrid b.1) b.2).trans hbe)

/-- Witness of C1 on the initial board: the Queen goes from c1 to d1 and back. -/
theorem move_then_undo_restores_witness :
    ∃ s1 out1 s2 out2, movePiece ChessBoard.init "c1" "d1" = some (s1, out1)
      ∧ undoMove s1 = some (s2, out2)
      ∧ pieceAt s2 "c1" = pieceAt ChessBoard.init "c1" ∧ pieceAt s2 "d1" = some Piece.EMPTY
      ∧ s2.board = ChessBoard.init.board ∧ s2.moveHistory = ChessBoard.init.moveHistory :=
  move_then_undo_restores ChessBoard.init "c1" "d1" (by decide) (by decide) (by decide)
    (by decide)

/-- C2: for distinct valid positions A and B with cell A non-empty, `movePiece(A, B)` returns a
state in which B holds the piece that was on A, A is `EMPTY`, every other cell is unchanged,
and the history is the old one with the record (A, B) on top; the line printed names A and
B. -/
theorem movePiece_effect (s : ChessBoard) (A B : String)
    (hA : isValidPosition A = true) (hB : isValidPosition B = true) (hAB : A ≠ B)
    (hocc : pieceAt s A ≠ some Piece.EMPTY) :
    ∃ s1, movePiece s A B = some (s1, "Moved from " ++ A ++ " to " ++ B ++ "\n")
      ∧ pieceAt s1 B = pieceAt s A ∧ pieceAt s1 A = some Piece.EMPTY
      ∧ (∀ i j, some (i, j) ≠ cellOf A → some (i, j) ≠ cellOf B → s1.board i j = s.board i j)
      ∧ s1.moveHistory = (A, B) :: s.moveHistory := by
  obtain ⟨a, ha⟩ := valid_cell hA
  obtain ⟨b, hb⟩ := valid_cell hB
  have hab : b ≠ a := fun e => hAB (valid_cell_inj hA hB (by rw [ha, hb, e]))
  rw [pieceAt_of_cell ha] at hocc
  have hne : s.board a.1 a.2 ≠ Piece.EMPTY := fun e => hocc (by rw [e])
  refine ⟨_, movePiece_cells ha hb hne, ?_, ?_, ?_, rfl⟩
  · rw [pieceAt_of_cell hb, pieceAt_of_cell ha]
    simp only
    rw [set_other _ _ _ _ _ hab, set_same]
  · rw [pieceAt_of_cell ha]
    simp only
    rw [set_same]
  · intro i j h1 h2
    rw [ha] at h1
    rw [hb] at h2
    simp only
    rw [set_other _ _ _ _ _ (fun e => h1 (congrArg some e)),
      set_other _ _ _ _ _ (fun e => h2 (congrArg some e))]

/-- Witness of C2 on the initial board, moving the Queen from c1 to d1. -/
theorem movePiece_effect_witness :
    ∃ s1, movePiece ChessBoard.init "c1" "d1"
        = some (s1, "Moved from " ++ "c1" ++ " to " ++ "d1" ++ "\n")
      ∧ pieceAt s1 "d1" = pieceAt ChessBoard.init "c1" ∧ pieceAt s1 "c1" = some Piece.EMPTY
      ∧ (∀ i j, some (i, j) ≠ cellOf "c1" → some (i, j) ≠ cellOf "d1"
          → s1.board i j = ChessBoard.init.board i j)
      ∧ s1.moveHistory = ("c1", "d1") :: ChessBoard.init.moveHistory :=
  movePiece_effect ChessBoard.init "c1" "d1" (by decide) (by decide) (by decide) (by decide)

/-- C3: for valid positions A and B with cell A `EMPTY`, `movePiece(A, B)` returns the state
unchanged (every cell of the grid and the history, so no record is pushed) and prints the
empty-source message naming A. -/
theorem movePiece_empty_source (s : ChessBoard) (A B : String)
    (hA : isValidPosition A = true) (_hB : isValidPosition B = true)
    (hemp : pieceAt s A = some Piece.EMPTY) :
    movePiece s A B = some (s, "No piece at " ++ A ++ "\n") := by
  obtain ⟨a, ha⟩ := valid_cell hA
  rw [pieceAt_of_cell ha] at hemp
  exact movePiece_empty B ha (by simpa using hemp)

/-- Witness of C3 on the initial board: a1 is empty. -/
theorem movePiece_empty_source_witness :
    movePiece ChessBoard.init "a1" "b2" = some (ChessBoard.init, "No piece at " ++ "a1" ++ "\n") :=
  movePiece_empty_source ChessBoard.init "a1" "b2" (by decide) (by decide) (by decide)

/-- C4: with an empty move history, `undoMove()` prints that there is nothing to undo and
returns the state (grid and history) unchanged. -/
theorem undoMove_empty_history (s : ChessBoard) (h : s.moveHistory = []) :
    undoMove s = some (s, "No moves to undo.\n") := by
  simp [undoMove, h]

/-- Witness of C4 on the initial board. -/
theorem undoMove_empty_history_witness :
    undoMove ChessBoard.init = some (ChessBoard.init, "No moves to undo.\n") :=
  undoMove_empty_history ChessBoard.init rfl

/-- C5: when the top record of the history is (A, B) with A and B valid and distinct,
`undoMove()` returns a state in which A holds what B held just before, B is `EMPTY`, every
other cell is unchanged, and the history has lost exactly its top record; the line printed
reports the reversal from B back to A. -/
theorem undoMove_effect (s : ChessBoard) (A B : String) (rest : List (String × String))
    (hh : s.moveHistory = (A, B) :: rest)
    (hA : isValidPosition A = true) (hB : isValidPosition B = true) (hAB : A ≠ B) :
    ∃ s1, undoMove s = some (s1, "Undid move from " ++ B ++ " back to " ++ A ++ "\n")
      ∧ pieceAt s1 A = pieceAt s B ∧ pieceAt s1 B = some Piece.EMPTY
      ∧ (∀ i j, some (i, j) ≠ cellOf A → some (i, j) ≠ cellOf B → s1.board i j = s.board i j)
      ∧ s1.moveHistory = rest := by
  obtain ⟨a, ha⟩ := valid_cell hA
  obtain ⟨b, hb⟩ := valid_cell hB
  have hab : a ≠ b := fun e => hAB (valid_cell_inj hA hB (by rw [ha, hb, e]))
  refine ⟨_, undoMove_cells hh ha hb, ?_, ?_, ?_, rfl⟩
  · rw [pieceAt_of_cell ha, pieceAt_of_cell hb]
    simp only
    rw [set_other _ _ _ _ _ hab, set_same]
  · rw [pieceAt_of_cell hb]
    simp only
    rw [set_same]
  · intro i j h1 h2
    rw [ha] at h1
    rw [hb] at h2
    simp only
    rw [set_other _ _ _ _ _ (fun e => h2 (congrArg some e)),
      set_other _ _ _ _ _ (fun e => h1 (congrArg some e))]

/-- Witness of C5: the initial grid with the record (d1, c1) on the stack. -/
theorem undoMove_effect_witness :
    ∃ s1, undoMove ⟨ChessBoard.init.board, [("d1", "c1")]⟩
        = some (s1, "Undid move from " ++ "c1" ++ " back to " ++ "d1" ++ "\n")
      ∧ pieceAt s1 "d1" = pieceAt ⟨ChessBoard.init.board, [("d1", "c1")]⟩ "c1"
      ∧ pieceAt s1 "c1" = some Piece.EMPTY
      ∧ (∀ i j, some (i, j) ≠ cellOf "d1" → some (i, j) ≠ cellOf "c1"
          → s1.board i j = ChessBoard.init.board i j)
      ∧ s1.moveHistory = [] :=
  undoMove_effect ⟨ChessBoard.init.board, [("d1", "c1")]⟩ "d1" "c1" [] rfl (by decide)
    (by decide) (by decide)

/-! ## Locating the King -/

theorem read_fin (g : Grid) (i j : Fin 8) : g.read (i : Int) (j : Int) = some (g i j) := by
  simp [Grid.read, index_fin]

theorem read_eq_some {g : Grid} {r c : Int} {p : Piece} :
    g.read r c = some p ↔ ∃ i j : Fin 8, (i : Int) = r ∧ (j : Int) = c ∧ g i j = p := by
  constructor
  · intro h
    unfold Grid.read at h
    cases hi : index r c with
    | none => simp [hi] at h
    | some cell =>
      rw [hi] at h
      obtain ⟨h1, h2⟩ := index_eq_some.1 hi
      exact ⟨cell.1, cell.2, h1, h2, by simpa using h⟩
  · rintro ⟨i, j, rfl, rfl, rfl⟩
    exact read_fin g i j

theorem findKing_flat (g : Grid) : findKing g = (List.range 64).foldl (kingStep g) none := rfl

theorem kingStep_range_last (g : Grid) (m : Nat)
    (hm : g.read ((m / 8 : Nat) : Int) ((m % 8 : Nat) : Int) = some Piece.KING) :
    ∀ n, m < n →
      (∀ k, m < k → k < n →
        g.read ((k / 8 : Nat) : Int) ((k % 8 : Nat) : Int) ≠ some Piece.KING) →
      (List.range n).foldl (kingStep g) none
        = some (((m / 8 : Nat) : Int), ((m % 8 : Nat) : Int)) := by
  intro n
  induction n with
  | zero => intro h; omega
  | succ n ih =>
    intro hlt hno
    rw [List.range_succ, List.foldl_append]
    simp only [List.foldl_cons, List.foldl_nil]
    by_cases hmn : m = n
    · subst hmn
      unfold kingStep
      rw [if_pos hm]
    · have h1 : m < n := by omega
      rw [ih h1 (fun k hk1 hk2 => hno k hk1 (by omega))]
      unfold kingStep
      rw [if_neg (hno n h1 (by omega))]

/-- The King search ends on the last cell, in row-major order, that holds `KING`. -/
theorem findKing_last (g : Grid) (kr kc : Fin 8) (hK : g kr kc = Piece.KING)
    (hlast : ∀ i j : Fin 8, (kr < i ∨ (kr = i ∧ kc < j)) → g i j ≠ Piece.KING) :
    findKing g = some ((kr : Int), (kc : Int)) := by
  have hdiv : (8 * kr.val + kc.val) / 8 = kr.val := by omega
  have hmod : (8 * kr.val + kc.val) % 8 = kc.val := by omega
  have key := kingStep_range_last g (8 * kr.val + kc.val)
    (by rw [hdiv, hmod, read_fin, hK]) 64 (by omega) (by
      intro k hk1 hk2
      have e := read_fin g ⟨k / 8, by omega⟩ ⟨k % 8, by omega⟩
      simp only at e
      rw [e]
      intro hking
      refine hlast ⟨k / 8, by omega⟩ ⟨k % 8, by omega⟩ ?_ (by simpa using hking)
      simp only [Fin.lt_def, Fin.ext_iff]
      omega)
  rw [hdiv, hmod] at key
  rw [findKing_flat, key]

/-! ## The three threat loops -/

theorem any_range_eight (p : Nat → Bool) :
    (List.range 8).any p = true ↔ ∃ i : Fin 8, p i.val = true := by
  rw [List.any_eq_true]
  constructor
  · rintro ⟨n, hn, hp⟩
    exact ⟨⟨n, List.mem_range.1 hn⟩, hp⟩
  · rintro ⟨i, hp⟩
    exact ⟨i.val, List.mem_range.2 i.isLt, hp⟩

theorem rankFileThreat_iff (g : Grid) (a b : Fin 8) :
    rankFileThreat g a b = true ↔
      (∃ j : Fin 8, g a j = Piece.QUEEN ∨ (g a j = Piece.ROOK ∧ j ≠ b))
        ∨ (∃ i : Fin 8, g i b = Piece.QUEEN ∨ (g i b = Piece.ROOK ∧ i ≠ a)) := by
  unfold rankFileThreat
  rw [any_range_eight]
  simp only [read_fin, Bool.or_eq_true, Bool.and_eq_true, beq_iff_eq, bne_iff_ne, ne_eq,
    Option.some.injEq, Nat.cast_inj, Fin.val_inj]
  constructor
  · rintro ⟨i, h | h⟩
    · exact Or.inl ⟨i, h⟩
    · exact Or.inr ⟨i, h⟩
  · rintro (⟨i, h⟩ | ⟨i, h⟩)
    · exact ⟨i, Or.inl h⟩
    · exact ⟨i, Or.inr h⟩

theorem diagonalThreat_iff (g : Grid) (a b : Fin 8) :
    diagonalThreat g a b = true ↔ diagonalAttack g a b := by
  unfold diagonalThreat diagonalAttack
  simp only [List.any_eq_true, List.mem_range'_1, Bool.or_eq_true, Bool.and_eq_true,
    decide_eq_true_eq, beq_iff_eq, read_eq_some]
  constructor
  · rintro ⟨x, ⟨hx1, hx2⟩, h⟩
    refine ⟨x, by omega, by omega, ?_⟩
    rcases h with ((⟨-, h⟩ | ⟨-, h⟩) | ⟨-, h⟩) | ⟨-, h⟩ <;>
      rcases h with ⟨i, j, hi, hj, hp⟩ | ⟨i, j, hi, hj, hp⟩ <;>
      exact ⟨i, j, by omega, by omega, by simp [hp]⟩
  · rintro ⟨d, h1, h2, i, j, hi, hj, hp⟩
    have hd : ((d.toNat : Nat) : Int) = d := Int.toNat_of_nonneg (by omega)
    have hi8 := i.isLt
    have hj8 := j.isLt
    refine ⟨d.toNat, by omega, ?_⟩
    rw [hd]
    have hq : ∀ r c : Int, (i : Int) = r → (j : Int) = c →
        ((∃ i j : Fin 8, (i : Int) = r ∧ (j : Int) = c ∧ g i j = Piece.QUEEN)
          ∨ ∃ i j : Fin 8, (i : Int) = r ∧ (j : Int) = c ∧ g i j = Piece.BISHOP) := by
      intro r c hr hc
      rcases hp with hp | hp
      · exact Or.inl ⟨i, j, hr, hc, hp⟩
      · exact Or.inr ⟨i, j, hr, hc, hp⟩
    rcases hi with hi | hi <;> rcases hj with hj | hj
    · exact Or.inr ⟨⟨by omega, by omega⟩, hq _ _ hi hj⟩
    · exact Or.inl (Or.inr ⟨⟨by omega, by omega⟩, hq _ _ hi hj⟩)
    · exact Or.inl (Or.inl (Or.inr ⟨⟨by omega, by omega⟩, hq _ _ hi hj⟩))
    · exact Or.inl (Or.inl (Or.inl ⟨⟨by omega, by omega⟩, hq _ _ hi hj⟩))

theorem knightThreat_iff (g : Grid) (a b : Fin 8) :
    knightThreat g a b = true ↔ knightAttack g a b := by
  unfold knightThreat knightAttack isKnightOffset
  simp only [knightMoves, List.any_cons, List.any_nil, Bool.or_false, Bool.or_eq_true,
    Bool.and_eq_true, decide_eq_true_eq, beq_iff_eq, read_eq_some]
  constructor
  · intro h
    rcases h with h | h | h | h | h | h | h | h <;>
      obtain ⟨-, i, j, hi, hj, hp⟩ := h <;>
      exact ⟨i, j, by omega, hp⟩
  · rintro ⟨i, j, hoff, hp⟩
    have hi8 := i.isLt
    have hj8 := j.isLt
    have hk : ∀ r c : Int, (i : Int) = r → (j : Int) = c →
        (((r ≥ 0 ∧ r < 8) ∧ c ≥ 0) ∧ c < 8)
          ∧ ∃ i j : Fin 8, (i : Int) = r ∧ (j : Int) = c ∧ g i j = Piece.KNIGHT := by
      intro r c hr hc
      exact ⟨by omega, i, j, hr, hc, hp⟩
    rcases hoff with ⟨h1 | h1, h2 | h2⟩ | ⟨h1 | h1, h2 | h2⟩
    · exact Or.inl (hk _ _ (by omega) (by omega))
    · exact Or.inr (Or.inl (hk _ _ (by omega) (by omega)))
    · exact Or.inr (Or.inr (Or.inl (hk _ _ (by omega) (by omega))))
    · exact Or.inr (Or.inr (Or.inr (Or.inl (hk _ _ (by omega) (by omega)))))
    · exact Or.inr (Or.inr (Or.inr (Or.inr (Or.inl (hk _ _ (by omega) (by omega))))))
    · exact Or.inr (Or.inr (Or.inr (Or.inr (Or.inr (Or.inl (hk _ _ (by omega) (by omega)))))))
    · exact Or.inr (Or.inr (Or.inr (Or.inr (Or.inr (Or.inr (Or.inl
        (hk _ _ (by omega) (by omega))))))))
    · exact Or.inr (Or.inr (Or.inr (Or.inr (Or.inr (Or.inr (Or.inr
        (hk _ _ (by omega) (by omega))))))))

/-! ## Check detection -/

theorem threatTests_iff (g : Grid) (a b : Fin 8) (hK : g a b = Piece.KING) :
    threatTests g a b = true ↔
      rankFileAttack g a b ∨ diagonalAttack g a b ∨ knightAttack g a b := by
  unfold threatTests
  rw [Bool.or_eq_true, Bool.or_eq_true, rankFileThreat_iff, diagonalThreat_iff,
    knightThreat_iff, or_assoc]
  refine or_congr ?_ Iff.rfl
  unfold rankFileAttack
  refine or_congr (exists_congr fun j => or_congr Iff.rfl ?_)
    (exists_congr fun i => or_congr Iff.rfl ?_)
  · refine ⟨fun h => h.1, fun h => ⟨h, ?_⟩⟩
    rintro rfl
    rw [hK] at h
    exact absurd h (by decide)
  · refine ⟨fun h => h.1, fun h => ⟨h, ?_⟩⟩
    rintro rfl
    rw [hK] at h
    exact absurd h (by decide)

/-- With the last King of the row-major scan at `(kr, kc)`, the method returns the outcome of
the three threat loops run from that cell. -/
theorem isKingInCheck_of_last (s : ChessBoard) (kr kc : Fin 8) (hK : s.board kr kc = Piece.KING)
    (hlast : ∀ i j : Fin 8, (kr < i ∨ (kr = i ∧ kc < j)) → s.board i j ≠ Piece.KING) :
    isKingInCheck s = some (threatTests s.board kr kc) := by
  unfold isKingInCheck
  rw [findKing_last s.board kr kc hK hlast]

theorem isKingInCheck_of_unique (s : ChessBoard) (kr kc : Fin 8)
    (hK : s.board kr kc = Piece.KING)
    (huniq : ∀ i j : Fin 8, s.board i j = Piece.KING → i = kr ∧ j = kc) :
    isKingInCheck s = some (threatTests s.board kr kc) := by
  refine isKingInCheck_of_last s kr kc hK ?_
  intro i j hlt hking
  obtain ⟨rfl, rfl⟩ := huniq i j hking
  rcases hlt with h | ⟨-, h⟩ <;> exact absurd h (lt_irrefl _)

theorem threatTests_congr (g g' : Grid) (a b : Fin 8)
    (h : ∀ i j p, p ≠ Piece.PAWN → p ≠ Piece.EMPTY → (g' i j = p ↔ g i j = p)) :
    threatTests g' a b = threatTests g a b := by
  have hQ := fun i j => h i j Piece.QUEEN (by decide) (by decide)
  have hR := fun i j => h i j Piece.ROOK (by decide) (by decide)
  have hB := fun i j => h i j Piece.BISHOP (by decide) (by decide)
  have hN := fun i j => h i j Piece.KNIGHT (by decide) (by decide)
  rw [Bool.eq_iff_iff]
  unfold threatTests
  rw [Bool.or_eq_true, Bool.or_eq_true, Bool.or_eq_true, Bool.or_eq_true,
    rankFileThreat_iff, diagonalThreat_iff, knightThreat_iff,
    rankFileThreat_iff, diagonalThreat_iff, knightThreat_iff]
  unfold diagonalAttack knightAttack
  simp only [hQ, hR, hB, hN]

theorem between_ne {k t x : Fin 8 × Fin 8} (h : between k t x) : x ≠ t := by
  rintro rfl
  obtain ⟨dr, dc, m, n, h1, h2, h3, h4, h5, h6, h7, h8, h9, h10, h11⟩ := h
  have e1 : n * dr = m * dr := by omega
  have e2 : n * dc = m * dc := by omega
  have hdr : dr = -1 ∨ dr = 0 ∨ dr = 1 := by omega
  have hdc : dc = -1 ∨ dc = 0 ∨ dc = 1 := by omega
  rcases hdr with rfl | rfl | rfl <;> rcases hdc with rfl | rfl | rfl <;>
    simp at e1 e2 h5 <;> omega

theorem slidingThreat_attacked {g : Grid} {kr kc : Fin 8} {t : Fin 8 × Fin 8}
    (h : slidingThreatAt g kr kc t) : rankFileAttack g kr kc ∨ diagonalAttack g kr kc := by
  obtain ⟨t1, t2⟩ := t
  rcases h with ⟨hline, hp⟩ | ⟨⟨d, h1, h2, hi, hj⟩, hp⟩
  · left
    rcases hline with hrow | hcol
    · simp only at hrow hp
      subst hrow
      exact Or.inl ⟨t2, hp⟩
    · simp only at hcol hp
      subst hcol
      exact Or.inr ⟨t1, hp⟩
  · right
    exact ⟨d, h1, h2, t1, t2, hi, hj, hp⟩

/-- C6: on a board whose only King is at `(kr, kc)`, `isKingInCheck()` returns `true` exactly
when a Queen or Rook is on row `kr` or column `kc`, or a Queen or Bishop is on a cell
`(kr ± d, kc ± d)` of the grid with `d` in `1..7`, or a Knight is on a knight-offset cell of the
grid, and returns `false` otherwise.  Changing the cells strictly between the King and a
threatening sliding piece keeps the answer `true` (no blocking), and exchanging Pawns and empty
cells anywhere never changes the answer. -/
theorem isKingInCheck_one_king (s : ChessBoard) (kr kc : Fin 8)
    (hK : s.board kr kc = Piece.KING)
    (huniq : ∀ i j : Fin 8, s.board i j = Piece.KING → i = kr ∧ j = kc) :
    (isKingInCheck s = some true ↔
        rankFileAttack s.board kr kc ∨ diagonalAttack s.board kr kc ∨ knightAttack s.board kr kc)
    ∧ (isKingInCheck s = some false ↔
        ¬ (rankFileAttack s.board kr kc ∨ diagonalAttack s.board kr kc
            ∨ knightAttack s.board kr kc))
    ∧ (∀ (t : Fin 8 × Fin 8) (s1 : ChessBoard), slidingThreatAt s.board kr kc t →
        s1.board kr kc = Piece.KING →
        (∀ i j : Fin 8, s1.board i j = Piece.KING → i = kr ∧ j = kc) →
        (∀ i j : Fin 8, s1.board i j ≠ s.board i j → between (kr, kc) t (i, j)) →
        isKingInCheck s1 = some true ∧ isKingInCheck s = some true)
    ∧ (∀ s1 : ChessBoard,
        (∀ i j : Fin 8, s1.board i j = s.board i j
          ∨ ((s.board i j = Piece.PAWN ∨ s.board i j = Piece.EMPTY)
              ∧ (s1.board i j = Piece.PAWN ∨ s1.board i j = Piece.EMPTY))) →
        isKingInCheck s1 = isKingInCheck s) := by
  have hs := isKingInCheck_of_unique s kr kc hK huniq
  have hiff := threatTests_iff s.board kr kc hK
  refine ⟨?_, ?_, ?_, ?_⟩
  · rw [hs, ← hiff]
    simp
  · rw [hs, ← hiff]
    simp
  · intro t s1 ht hK1 huniq1 hdiff
    have hsame : s1.board t.1 t.2 = s.board t.1 t.2 := by
      by_contra hne
      exact between_ne (hdiff t.1 t.2 hne) rfl
    have ht1 : slidingThreatAt s1.board kr kc t := by
      unfold slidingThreatAt at ht ⊢
      rw [hsame]
      exact ht
    constructor
    · rw [isKingInCheck_of_unique s1 kr kc hK1 huniq1,
        (threatTests_iff s1.board kr kc hK1).2 ((slidingThreat_attacked ht1).elim Or.inl
          (fun h => Or.inr (Or.inl h)))]
    · rw [hs, hiff.2 ((slidingThreat_attacked ht).elim Or.inl (fun h => Or.inr (Or.inl h)))]
  · intro s1 hpawn
    have hcongr : ∀ i j p, p ≠ Piece.PAWN → p ≠ Piece.EMPTY →
        (s1.board i j = p ↔ s.board i j = p) := by
      intro i j p hp1 hp2
      rcases hpawn i j with h | ⟨h1, h2⟩
      · rw [h]
      · constructor
        · intro e
          rw [e] at h2
          rcases h2 with h2 | h2
          · exact absurd h2 hp1
          · exact absurd h2 hp2
        · intro e
          rw [e] at h1
          rcases h1 with h1 | h1
          · exact absurd h1 hp1
          · exact absurd h1 hp2
    have hK1 : s1.board kr kc = Piece.KING := (hcongr kr kc _ (by decide) (by decide)).2 hK
    have huniq1 : ∀ i j : Fin 8, s1.board i j = Piece.KING → i = kr ∧ j = kc :=
      fun i j h => huniq i j ((hcongr i j _ (by decide) (by decide)).1 h)
    rw [hs, isKingInCheck_of_unique s1 kr kc hK1 huniq1,
      threatTests_congr s.board s1.board kr kc hcongr]

/-- Witness of C6: the King on d2 with a Queen on h2 and a Pawn in between. -/
theorem isKingInCheck_one_king_witness :
    screenedBoard.board 6 3 = Piece.KING
    ∧ (∀ i j : Fin 8, screenedBoard.board i j = Piece.KING → i = 6 ∧ j = 3)
    ∧ (isKingInCheck screenedBoard = some true ↔
        rankFileAttack screenedBoard.board 6 3 ∨ diagonalAttack screenedBoard.board 6 3
          ∨ knightAttack screenedBoard.board 6 3) :=
  ⟨by decide, by decide, (isKingInCheck_one_king screenedBoard 6 3 (by decide) (by decide)).1⟩

/-- C7: on a board whose only non-empty cells are a King at `(kr, kc)` and a Knight at
`(nr, nc)`, `isKingInCheck()` returns `true` exactly when `(nr - kr, nc - kc)` is one of the
eight knight offsets and `false` otherwise; so it is `true` for the offset (2, 1) and `false`
for the offset (2, 2). -/
theorem isKingInCheck_king_knight (s : ChessBoard) (kr kc nr nc : Fin 8)
    (hK : s.board kr kc = Piece.KING) (hN : s.board nr nc = Piece.KNIGHT)
    (hE : ∀ i j : Fin 8, (i, j) ≠ (kr, kc) → (i, j) ≠ (nr, nc) → s.board i j = Piece.EMPTY) :
    (isKingInCheck s = some true ↔ isKnightOffset ((nr : Int) - kr) ((nc : Int) - kc))
    ∧ (isKingInCheck s = some false ↔ ¬ isKnightOffset ((nr : Int) - kr) ((nc : Int) - kc))
    ∧ ((nr : Int) - kr = 2 ∧ (nc : Int) - kc = 1 → isKingInCheck s = some true)
    ∧ ((nr : Int) - kr = 2 ∧ (nc : Int) - kc = 2 → isKingInCheck s = some false) := by
  have hcell : ∀ i j : Fin 8, s.board i j = Piece.KING ∨ s.board i j = Piece.KNIGHT
      ∨ s.board i j = Piece.EMPTY := by
    intro i j
    by_cases h1 : (i, j) = (kr, kc)
    · obtain ⟨rfl, rfl⟩ := Prod.mk.inj h1
      exact Or.inl hK
    · by_cases h2 : (i, j) = (nr, nc)
      · obtain ⟨rfl, rfl⟩ := Prod.mk.inj h2
        exact Or.inr (Or.inl hN)
      · exact Or.inr (Or.inr (hE i j h1 h2))
  have huniq : ∀ i j : Fin 8, s.board i j = Piece.KING → i = kr ∧ j = kc := by
    intro i j h
    by_contra hne
    have h1 : (i, j) ≠ (kr, kc) := fun e => hne (Prod.mk.inj e)
    by_cases h2 : (i, j) = (nr, nc)
    · obtain ⟨rfl, rfl⟩ := Prod.mk.inj h2
      rw [hN] at h
      exact absurd h (by decide)
    · rw [hE i j h1 h2] at h
      exact absurd h (by decide)
  have hknight : ∀ i j : Fin 8, s.board i j = Piece.KNIGHT → i = nr ∧ j = nc := by
    intro i j h
    by_contra hne
    have h2 : (i, j) ≠ (nr, nc) := fun e => hne (Prod.mk.inj e)
    by_cases h1 : (i, j) = (kr, kc)
    · obtain ⟨rfl, rfl⟩ := Prod.mk.inj h1
      rw [hK] at h
      exact absurd h (by decide)
    · rw [hE i j h1 h2] at h
      exact absurd h (by decide)
  have hnot : ∀ i j : Fin 8, ∀ p, p ≠ Piece.KING → p ≠ Piece.KNIGHT → p ≠ Piece.EMPTY →
      s.board i j ≠ p := by
    intro i j p h1 h2 h3 e
    rcases hcell i j with h | h | h
    · exact h1 (e.symm.trans h)
    · exact h2 (e.symm.trans h)
    · exact h3 (e.symm.trans h)
  have hQ := fun i j => hnot i j Piece.QUEEN (by decide) (by decide) (by decide)
  have hR := fun i j => hnot i j Piece.ROOK (by decide) (by decide) (by decide)
  have hB := fun i j => hnot i j Piece.BISHOP (by decide) (by decide) (by decide)
  have hatt : (rankFileAttack s.board kr kc ∨ diagonalAttack s.board kr kc
      ∨ knightAttack s.board kr kc) ↔ isKnightOffset ((nr : Int) - kr) ((nc : Int) - kc) := by
    constructor
    · rintro (h | h | h)
      · rcases h with ⟨j, h | h⟩ | ⟨i, h | h⟩
        · exact absurd h (hQ _ _)
        · exact absurd h (hR _ _)
        · exact absurd h (hQ _ _)
        · exact absurd h (hR _ _)
      · obtain ⟨d, -, -, i, j, -, -, h | h⟩ := h
        · exact absurd h (hQ _ _)
        · exact absurd h (hB _ _)
      · obtain ⟨i, j, hoff, hp⟩ := h
        obtain ⟨rfl, rfl⟩ := hknight i j hp
        exact hoff
    · intro hoff
      exact Or.inr (Or.inr ⟨nr, nc, hoff, hN⟩)
  have hs := isKingInCheck_of_unique s kr kc hK huniq
  have hiff := (threatTests_iff s.board kr kc hK).trans hatt
  have htrue : isKingInCheck s = some true ↔
      isKnightOffset ((nr : Int) - kr) ((nc : Int) - kc) := by
    rw [hs, ← hiff]
    simp
  have hfalse : isKingInCheck s = some false ↔
      ¬ isKnightOffset ((nr : Int) - kr) ((nc : Int) - kc) := by
    rw [hs, ← hiff]
    simp
  refine ⟨htrue, hfalse, ?_, ?_⟩
  · rintro ⟨h1, h2⟩
    exact htrue.2 (Or.inl ⟨Or.inl h1, Or.inl h2⟩)
  · rintro ⟨h1, h2⟩
    refine hfalse.2 ?_
    unfold isKnightOffset
    omega

/-- Witness of C7: the King on d2 and the Knight on e4. -/
theorem isKingInCheck_king_knight_witness :
    knightBoard.board 6 3 = Piece.KING ∧ knightBoard.board 4 4 = Piece.KNIGHT
    ∧ (∀ i j : Fin 8, (i, j) ≠ (6, 3) → (i, j) ≠ (4, 4) → knightBoard.board i j = Piece.EMPTY)
    ∧ (isKingInCheck knightBoard = some true ↔
        isKnightOffset (((4 : Fin 8) : Int) - (6 : Fin 8)) (((4 : Fin 8) : Int) - (3 : Fin 8))) :=
  ⟨by decide, by decide, by decide,
    (isKingInCheck_king_knight knightBoard 6 3 4 4 (by decide) (by decide) (by decide)).1⟩

/-! ## The initial board and the example session -/

/-- C8 fails as stated: on the initial board `isKingInCheck()` does not return `false`, and
`check` does not print that the King is safe. -/
theorem initial_board_not_safe :
    isKingInCheck ChessBoard.init ≠ some false
    ∧ interpret "check" ChessBoard.init ≠ some (ChessBoard.init, "King is safe.\n") := by
  constructor
  · decide
  · intro h
    have h2 := congrArg (Option.map Prod.snd) h
    exact absurd h2 (by decide)

/-- C8, amended: the constructor puts a Knight on row 0 column 1, the King on row 6 column 3,
a Queen on row 7 column 2 and nothing else; on that board `isKingInCheck()` returns `true` and
`check` prints that the King is in check, because the Queen, although on another row and
another column, stands on the diagonal cell one row below and one column left of the King. -/
theorem initial_board_in_check :
    ChessBoard.init.board 0 1 = Piece.KNIGHT ∧ ChessBoard.init.board 6 3 = Piece.KING
    ∧ ChessBoard.init.board 7 2 = Piece.QUEEN
    ∧ (∀ i j : Fin 8, (i, j) ≠ (0, 1) → (i, j) ≠ (6, 3) → (i, j) ≠ (7, 2) →
        ChessBoard.init.board i j = Piece.EMPTY)
    ∧ ChessBoard.init.moveHistory = []
    ∧ isKingInCheck ChessBoard.init = some true
    ∧ interpret "check" ChessBoard.init = some (ChessBoard.init, "King is in check!\n")
    ∧ ¬ rankFileAttack ChessBoard.init.board 6 3
    ∧ diagonalAttack ChessBoard.init.board 6 3
    ∧ (((7 : Fin 8) : Int) = ((6 : Fin 8) : Int) + 1
        ∧ ((2 : Fin 8) : Int) = ((3 : Fin 8) : Int) - 1) := by
  refine ⟨by decide, by decide, by decide, by decide, rfl, by decide, rfl, ?_, ?_, by decide⟩
  · unfold rankFileAttack
    decide
  · exact ⟨1, by decide, by decide, 7, 2, Or.inl (by decide), Or.inr (by decide),
      Or.inl (by decide)⟩

/-- C9: from the initial board, the line `move from c1 to d1` moves the Queen from row 7
column 2 to row 7 column 3, leaves row 7 column 2 `EMPTY` and records (c1, d1); `check` then
prints that the King is in check, the Queen sharing column 3 with the King at row 6. -/
theorem move_queen_then_check :
    ChessBoard.init.board 7 2 = Piece.QUEEN
    ∧ ∃ s1, interpret "move from c1 to d1" ChessBoard.init = some (s1, "Moved from c1 to d1\n")
      ∧ s1.board 7 3 = Piece.QUEEN ∧ s1.board 7 2 = Piece.EMPTY
      ∧ (∀ i j : Fin 8, (i, j) ≠ (7, 2) → (i, j) ≠ (7, 3) →
          s1.board i j = ChessBoard.init.board i j)
      ∧ s1.moveHistory = [("c1", "d1")]
      ∧ s1.board 6 3 = Piece.KING
      ∧ isKingInCheck s1 = some true
      ∧ interpret "check" s1 = some (s1, "King is in check!\n")
      ∧ rankFileAttack s1.board 6 3 := by
  refine ⟨by decide, _, rfl, by decide, by decide, by decide, rfl, by decide, by decide, rfl, ?_⟩
  exact Or.inr ⟨7, Or.inl (by decide)⟩

/-! ## Several Kings -/

theorem exists_last_index (K : Nat → Prop) :
    ∀ n, (∃ m, m < n ∧ K m) → ∃ m, m < n ∧ K m ∧ ∀ k, m < k → k < n → ¬ K k := by
  intro n
  induction n with
  | zero => rintro ⟨m, hm, -⟩; omega
  | succ n ih =>
    rintro ⟨m, hm, hK⟩
    by_cases hn : K n
    · exact ⟨n, by omega, hn, fun k h1 h2 => by omega⟩
    · have hmn : m ≠ n := fun e => hn (e ▸ hK)
      obtain ⟨m1, h1, h2, h3⟩ := ih ⟨m, by omega, hK⟩
      refine ⟨m1, by omega, h2, fun k hk1 hk2 => ?_⟩
      by_cases hkn : k = n
      · rw [hkn]; exact hn
      · exact h3 k hk1 (by omega)

/-- A board with a King has a last King in row-major order. -/
theorem exists_last_king (g : Grid) (hex : ∃ i j : Fin 8, g i j = Piece.KING) :
    ∃ kr kc : Fin 8, g kr kc = Piece.KING
      ∧ ∀ i j : Fin 8, (kr < i ∨ (kr = i ∧ kc < j)) → g i j ≠ Piece.KING := by
  obtain ⟨i0, j0, h0⟩ := hex
  have hi0 := i0.isLt
  have hj0 := j0.isLt
  obtain ⟨m, hm, hK, hlast⟩ := exists_last_index
    (fun n => ∃ h : n < 64, g ⟨n / 8, by omega⟩ ⟨n % 8, by omega⟩ = Piece.KING) 64
    ⟨8 * i0.val + j0.val, by omega, by omega, by
      have e1 : (⟨(8 * i0.val + j0.val) / 8, by omega⟩ : Fin 8) = i0 := by
        apply Fin.ext; simp only; omega
      have e2 : (⟨(8 * i0.val + j0.val) % 8, by omega⟩ : Fin 8) = j0 := by
        apply Fin.ext; simp only; omega
      rw [e1, e2]; exact h0⟩
  obtain ⟨_, hK⟩ := hK
  refine ⟨⟨m / 8, by omega⟩, ⟨m % 8, by omega⟩, hK, ?_⟩
  intro i j hlt hking
  have hi := i.isLt
  have hj := j.isLt
  simp only [Fin.lt_def, Fin.ext_iff] at hlt
  refine hlast (8 * i.val + j.val) (by omega) (by omega) ⟨by omega, ?_⟩
  have e1 : (⟨(8 * i.val + j.val) / 8, by omega⟩ : Fin 8) = i := by
    apply Fin.ext; simp only; omega
  have e2 : (⟨(8 * i.val + j.val) % 8, by omega⟩ : Fin 8) = j := by
    apply Fin.ext; simp only; omega
  rw [e1, e2]; exact hking

/-- C10 fails as stated: on the board with Kings on a8 and h1 and a Knight on b6, the first
King of the row-major scan is the one at row 0 column 0, yet `isKingInCheck()` returns `false`
while the three threat tests run from that first King give `true`. -/
theorem first_king_not_used :
    twoKings.board 0 0 = Piece.KING
    ∧ (∀ i j : Fin 8, (i < 0 ∨ (i = 0 ∧ j < 0)) → twoKings.board i j ≠ Piece.KING)
    ∧ isKingInCheck twoKings = some false
    ∧ (rankFileThreat twoKings.board 0 0 || diagonalThreat twoKings.board 0 0
        || knightThreat twoKings.board 0 0) = true
    ∧ isKingInCheck twoKings ≠ some (rankFileThreat twoKings.board 0 0
        || diagonalThreat twoKings.board 0 0 || knightThreat twoKings.board 0 0) := by
  refine ⟨by decide, by decide, by decide, by decide, by decide⟩

/-- C10, amended: on a board with at least one King, `isKingInCheck()` runs the threat tests
from the last King met in the row-major scan (largest row, then largest column): such a cell
exists, and the result is that of the rank/file, diagonal and knight tests applied to it. -/
theorem isKingInCheck_last_king (s : ChessBoard)
    (hex : ∃ i j : Fin 8, s.board i j = Piece.KING) :
    ∃ kr kc : Fin 8, s.board kr kc = Piece.KING
      ∧ (∀ i j : Fin 8, (kr < i ∨ (kr = i ∧ kc < j)) → s.board i j ≠ Piece.KING)
      ∧ isKingInCheck s = some (rankFileThreat s.board kr kc || diagonalThreat s.board kr kc
          || knightThreat s.board kr kc) := by
  obtain ⟨kr, kc, hK, hlast⟩ := exists_last_king s.board hex
  exact ⟨kr, kc, hK, hlast, isKingInCheck_of_last s kr kc hK hlast⟩

/-- Witness of C10, amended, on the board with two Kings. -/
theorem isKingInCheck_last_king_witness :
    ∃ kr kc : Fin 8, twoKings.board kr kc = Piece.KING
      ∧ (∀ i j : Fin 8, (kr < i ∨ (kr = i ∧ kc < j)) → twoKings.board i j ≠ Piece.KING)
      ∧ isKingInCheck twoKings = some (rankFileThreat twoKings.board kr kc
          || diagonalThreat twoKings.board kr kc || knightThreat twoKings.board kr kc) :=
  isKingInCheck_last_king twoKings ⟨0, 0, by decide⟩

/-! ## The tokenizer -/

theorem wordsOf_nil : wordsOf [] = [] := rfl

theorem wordsOf_cons_space {c : Char} (cs : List Char) (h : isspace c = true) :
    wordsOf (c :: cs) = wordsOf cs := by
  unfold wordsOf
  rw [List.splitOnP_cons, if_pos h]
  rfl

theorem wordsOf_dropWhile (cs : List Char) : wordsOf (cs.dropWhile isspace) = wordsOf cs := by
  induction cs with
  | nil => rfl
  | cons c cs ih =>
    rw [List.dropWhile_cons]
    by_cases h : isspace c = true
    · rw [if_pos h, ih, wordsOf_cons_space cs h]
    · rw [if_neg h]

/-- A non-empty run without whitespace, followed by nothing or by a whitespace character, is
the first word. -/
theorem wordsOf_word (tok rest : List Char) (htok : tok ≠ [])
    (hns : ∀ x ∈ tok, ¬ isspace x = true)
    (hrest : rest = [] ∨ ∃ s r, rest = s :: r ∧ isspace s = true) :
    wordsOf (tok ++ rest) = tok :: wordsOf rest := by
  have hkeep : (!tok.isEmpty) = true := by
    cases tok with
    | nil => exact absurd rfl htok
    | cons _ _ => rfl
  rcases hrest with rfl | ⟨s, r, rfl, hs⟩
  · rw [List.append_nil, wordsOf_nil]
    unfold wordsOf
    rw [List.splitOnP_eq_single isspace tok hns]
    simp only [List.filter_cons, hkeep, if_true, List.filter_nil]
  · rw [wordsOf_cons_space r hs]
    unfold wordsOf
    rw [List.splitOnP_first isspace tok hns s hs r]
    simp only [List.filter_cons, hkeep, if_true]

theorem dropWhile_head_false {α : Type} (p : α → Bool) :
    ∀ (l : List α) (c : α) (cs : List α), l.dropWhile p = c :: cs → p c = false := by
  intro l
  induction l with
  | nil => intro c cs h; simp at h
  | cons a l ih =>
    intro c cs h
    rw [List.dropWhile_cons] at h
    by_cases ha : p a = true
    · rw [if_pos ha] at h
      exact ih c cs h
    · rw [if_neg ha] at h
      obtain ⟨rfl, -⟩ := List.cons.inj h
      simpa using ha

theorem extract_none {cs : List Char} (h : extract cs = none) : wordsOf cs = [] := by
  unfold extract at h
  cases hd : cs.dropWhile isspace with
  | nil => rw [← wordsOf_dropWhile, hd, wordsOf_nil]
  | cons c l => rw [hd] at h; simp at h

theorem extract_some {cs tok rest : List Char} (h : extract cs = some (tok, rest)) :
    wordsOf cs = tok :: wordsOf rest ∧ tok ≠ [] ∧ (∀ x ∈ tok, isspace x = false)
      ∧ rest.length < cs.length := by
  unfold extract at h
  cases hd : cs.dropWhile isspace with
  | nil => rw [hd] at h; simp at h
  | cons c l =>
    rw [hd] at h
    simp only [Option.some.injEq, Prod.mk.injEq] at h
    obtain ⟨h1, h2⟩ := h
    have hc : isspace c = false := dropWhile_head_false isspace cs c l hd
    have hsplit : tok ++ rest = c :: l := by
      rw [← h1, ← h2]
      exact List.takeWhile_append_dropWhile _ _
    have htok : tok ≠ [] := by
      rw [← h1, List.takeWhile_cons]
      simp [hc]
    have hns : ∀ x ∈ tok, isspace x = false := by
      intro x hx
      rw [← h1] at hx
      simpa using List.mem_takeWhile_imp hx
    have hrest : rest = [] ∨ ∃ s r, rest = s :: r ∧ isspace s = true := by
      cases hr : rest with
      | nil => exact Or.inl rfl
      | cons s r =>
        refine Or.inr ⟨s, r, rfl, ?_⟩
        have := dropWhile_head_false (fun x => !isspace x) (c :: l) s r (by rw [h2, hr])
        simpa using this
    refine ⟨?_, htok, hns, ?_⟩
    · rw [← wordsOf_dropWhile, hd, ← hsplit]
      exact wordsOf_word tok rest htok (fun x hx => by simp [hns x hx]) hrest
    · have hlen : (tok ++ rest).length = (c :: l).length := by rw [hsplit]
      have hsuf := (List.dropWhile_suffix (l := cs) isspace).length_le
      rw [hd] at hsuf
      have htl : 0 < tok.length := List.length_pos.2 htok
      rw [List.length_append] at hlen
      omega

/-- With more fuel than characters left, the loop appends the specified tokens of the rest of
the line to those already pushed. -/
theorem tokenizeLoop_spec : ∀ (fuel : Nat) (cs : List Char) (acc : List String),
    cs.length < fuel →
    tokenizeLoop fuel cs acc
      = acc ++ ((wordsOf cs).takeWhile fun w => w.head? != some '#').map String.mk := by
  intro fuel
  induction fuel with
  | zero => intro cs acc h; omega
  | succ fuel ih =>
    intro cs acc hlen
    unfold tokenizeLoop
    cases he : extract cs with
    | none => simp [extract_none he]
    | some pr =>
      obtain ⟨tok, rest⟩ := pr
      obtain ⟨hw, -, -, hlt⟩ := extract_some he
      simp only
      by_cases hhash : tok.head? = some '#'
      · rw [if_neg (by simpa using hhash), hw, List.takeWhile_cons]
        simp [hhash]
      · rw [if_pos hhash, ih rest _ (by omega), hw, List.takeWhile_cons]
        simp [hhash]

theorem tokenize_eq_specTokens (input : String) : tokenize input = specTokens input := by
  have hfuel : input.toList.length < input.length + 1 := by
    cases input
    exact Nat.lt_succ_self _
  unfold tokenize specTokens
  rw [tokenizeLoop_spec _ _ _ hfuel, List.nil_append]

theorem mem_wordsOf : ∀ (n : Nat) (cs : List Char), cs.length ≤ n →
    ∀ w ∈ wordsOf cs, w ≠ [] ∧ ∀ x ∈ w, isspace x = false := by
  intro n
  induction n with
  | zero =>
    intro cs h w hw
    have : cs = [] := List.length_eq_zero.1 (by omega)
    rw [this, wordsOf_nil] at hw
    simp at hw
  | succ n ih =>
    intro cs hlen w hw
    cases he : extract cs with
    | none => rw [extract_none he] at hw; simp at hw
    | some pr =>
      obtain ⟨tok, rest⟩ := pr
      obtain ⟨hwords, htok, hns, hlt⟩ := extract_some he
      rw [hwords] at hw
      rcases List.mem_cons.1 hw with rfl | hw
      · exact ⟨htok, hns⟩
      · exact ih rest (by omega) w hw

theorem wordsOf_all_space (cs : List Char) (h : ∀ c ∈ cs, isspace c = true) :
    wordsOf cs = [] := by
  rw [← wordsOf_dropWhile, List.dropWhile_eq_nil_iff.2 h, wordsOf_nil]

/-- The first word of a line that starts with a non-whitespace character. -/
theorem wordsOf_cons_word (c : Char) (cs : List Char) (hc : isspace c = false) :
    ∃ tok rest, c :: cs = tok ++ rest ∧ tok.head? = some c
      ∧ (∀ x ∈ tok, ¬ isspace x = true)
      ∧ (rest = [] ∨ ∃ s r, rest = s :: r ∧ isspace s = true)
      ∧ rest.length ≤ cs.length := by
  have he : extract (c :: cs) = some ((c :: cs).takeWhile (fun x => !isspace x),
      (c :: cs).dropWhile (fun x => !isspace x)) := by
    unfold extract
    rw [List.dropWhile_cons, if_neg (by simp [hc])]
  obtain ⟨-, htok, hns, hlt⟩ := extract_some he
  refine ⟨(c :: cs).takeWhile (fun x => !isspace x), (c :: cs).dropWhile (fun x => !isspace x),
    (List.takeWhile_append_dropWhile _ _).symm, ?_, ?_, ?_, ?_⟩
  · rw [List.takeWhile_cons]
    simp [hc]
  · intro x hx
    simp [hns x hx]
  · cases hr : (c :: cs).dropWhile (fun x => !isspace x) with
    | nil => exact Or.inl rfl
    | cons s r =>
      refine Or.inr ⟨s, r, rfl, ?_⟩
      have := dropWhile_head_false (fun x => !isspace x) (c :: cs) s r hr
      simpa using this
  · simp only [List.length_cons] at hlt
    omega

theorem wordsOf_append_space : ∀ (n : Nat) (l : List Char), l.length ≤ n →
    ∀ (s : Char) (r : List Char), isspace s = true →
      wordsOf (l ++ s :: r) = wordsOf l ++ wordsOf r := by
  intro n
  induction n with
  | zero =>
    intro l hl s r hs
    have : l = [] := List.length_eq_zero.1 (by omega)
    rw [this, wordsOf_nil, List.nil_append, List.nil_append, wordsOf_cons_space r hs]
  | succ n ih =>
    intro l hl s r hs
    cases l with
    | nil => rw [wordsOf_nil, List.nil_append, List.nil_append, wordsOf_cons_space r hs]
    | cons c cs =>
      simp only [List.length_cons] at hl
      by_cases hc : isspace c = true
      · rw [List.cons_append, wordsOf_cons_space _ hc, wordsOf_cons_space _ hc]
        exact ih cs (by omega) s r hs
      · have hc' : isspace c = false := by simpa using hc
        obtain ⟨tok, rest, hsplit, hhead, hns, hrest, hlen⟩ := wordsOf_cons_word c cs hc'
        have htok : tok ≠ [] := by
          rintro rfl
          simp at hhead
        rw [hsplit, List.append_assoc, wordsOf_word tok rest htok hns hrest,
          wordsOf_word tok (rest ++ s :: r) htok hns ?_, ih rest (by omega) s r hs,
          List.cons_append]
        rcases hrest with rfl | ⟨s1, r1, rfl, hs1⟩
        · exact Or.inr ⟨s, r, rfl, hs⟩
        · exact Or.inr ⟨s1, r1 ++ s :: r, rfl, hs1⟩

theorem takeWhile_append_stop {α : Type} (p : α → Bool) (w : α) (hw : p w = false) :
    ∀ (l r : List α), (l ++ w :: r).takeWhile p = l.takeWhile p := by
  intro l r
  induction l with
  | nil => simp [List.takeWhile_cons, hw]
  | cons a l ih =>
    rw [List.cons_append, List.takeWhile_cons, List.takeWhile_cons, ih]

/-- C11: `tokenize` returns the maximal whitespace-delimited non-empty words of the line, in
order, cut just before the first word that begins with `#`.  So the empty line and a line of
whitespace only give no token, and every token returned is non-empty, contains no whitespace
and does not begin with `#`. -/
theorem tokenize_words (input : String) :
    tokenize input = specTokens input
    ∧ specTokens input
        = (((input.toList.splitOnP isspace).filter fun w => !w.isEmpty).takeWhile
            fun w => w.head? != some '#').map String.mk
    ∧ tokenize "" = []
    ∧ ((∀ c ∈ input.toList, isspace c = true) → tokenize input = [])
    ∧ ∀ t ∈ tokenize input,
        t ≠ "" ∧ (∀ c ∈ t.toList, isspace c = false) ∧ t.toList.head? ≠ some '#' := by
  refine ⟨tokenize_eq_specTokens input, rfl, by decide, ?_, ?_⟩
  · intro h
    rw [tokenize_eq_specTokens]
    unfold specTokens
    rw [wordsOf_all_space _ h]
    rfl
  · intro t ht
    rw [tokenize_eq_specTokens] at ht
    unfold specTokens at ht
    obtain ⟨w, hw, rfl⟩ := List.mem_map.1 ht
    have hword := mem_wordsOf _ input.toList (le_refl _) w
      ((List.takeWhile_sublist _).subset hw)
    have hhash := List.mem_takeWhile_imp hw
    refine ⟨?_, hword.2, ?_⟩
    · intro e
      exact hword.1 (congrArg String.toList e)
    · simpa using hhash

/-- C12: appending a blank, a `#` and any text to a line never changes its tokens; for
instance `move from b8 to c6 # relocate` gives the five tokens of `move from b8 to c6`. -/
theorem tokenize_comment (line text : String) :
    tokenize (line ++ " #" ++ text) = tokenize line
    ∧ tokenize "move from b8 to c6 # relocate" = tokenize "move from b8 to c6"
    ∧ tokenize "move from b8 to c6" = ["move", "from", "b8", "to", "c6"] := by
  refine ⟨?_, by decide, by decide⟩
  rw [tokenize_eq_specTokens, tokenize_eq_specTokens]
  unfold specTokens
  have hlist : (line ++ " #" ++ text).toList = line.toList ++ ' ' :: ('#' :: text.toList) := by
    simp [String.toList, String.data_append]
  obtain ⟨tok, rest, hsplit, hhead, hns, hrest, -⟩ :=
    wordsOf_cons_word '#' text.toList (by decide)
  have htok : tok ≠ [] := by
    rintro rfl
    simp at hhead
  rw [hlist, wordsOf_append_space _ _ (le_refl _) ' ' _ (by decide), hsplit,
    wordsOf_word tok rest htok hns hrest,
    takeWhile_append_stop _ tok (by simp [hhead])]

/-! ## The parser and the interpreter -/

theorem parse_nil : parse [] = (none, "") := rfl

theorem parse_move (p1 p2 : String) :
    parse ["move", "from", p1, "to", p2] = (some (ASTNode.MoveNode p1 p2), "") := by
  simp [parse]

theorem parse_cons (x : String) (rest : List String) :
    parse (x :: rest) =
      if x = "move" ∧ rest.length = 4 ∧ rest.get? 0 = some "from" ∧ rest.get? 2 = some "to" then
        (some (ASTNode.MoveNode (rest.getD 1 "") (rest.getD 3 "")), "")
      else if x = "undo" then (some ASTNode.UndoNode, "")
      else if x = "check" then (some ASTNode.CheckNode, "")
      else (none, "Invalid command!\n") := by
  simp [parse]

theorem move_shape {x : String} {rest : List String}
    (h : x = "move" ∧ rest.length = 4 ∧ rest.get? 0 = some "from" ∧ rest.get? 2 = some "to") :
    x :: rest = ["move", "from", rest.getD 1 "", "to", rest.getD 3 ""] := by
  obtain ⟨rfl, hlen, h0, h2⟩ := h
  match rest, hlen with
  | [a, b, c, d], _ =>
    simp at h0 h2
    simp [h0, h2]

theorem parse_output_of_some (t : List String) (node : ASTNode)
    (h : (parse t).1 = some node) : (parse t).2 = "" := by
  cases t with
  | nil => rfl
  | cons x rest =>
    rw [parse_cons] at h ⊢
    split
    · rfl
    · rename_i h1
      rw [if_neg h1] at h
      split
      · rfl
      · rename_i h2
        rw [if_neg h2] at h
        split
        · rfl
        · rename_i h3
          rw [if_neg h3] at h
          simp at h

/-- C13: `parse` fails silently on the empty sequence; returns `MoveNode` exactly on the
five-token sequences `move from p1 to p2`, with the two positions taken verbatim; returns
`UndoNode` exactly when the first token is `undo` and `CheckNode` exactly when it is `check`,
whatever follows; and in every other case fails with the message `Invalid command!`.  So a
sequence beginning with `move` whose length is not 5 is a failure. -/
theorem parse_spec (t : List String) :
    (t = [] → parse t = (none, ""))
    ∧ (∀ p1 p2, (parse t).1 = some (ASTNode.MoveNode p1 p2) ↔ t = ["move", "from", p1, "to", p2])
    ∧ (∀ p1 p2, parse ["move", "from", p1, "to", p2] = (some (ASTNode.MoveNode p1 p2), ""))
    ∧ ((parse t).1 = some ASTNode.UndoNode ↔ t.head? = some "undo")
    ∧ ((parse t).1 = some ASTNode.CheckNode ↔ t.head? = some "check")
    ∧ (∀ node, (parse t).1 = some node → (parse t).2 = "")
    ∧ (t ≠ [] → (∀ p1 p2, t ≠ ["move", "from", p1, "to", p2]) → t.head? ≠ some "undo" →
        t.head? ≠ some "check" → parse t = (none, "Invalid command!\n"))
    ∧ (t.head? = some "move" → t.length ≠ 5 → parse t = (none, "Invalid command!\n")) := by
  cases t with
  | nil =>
    refine ⟨fun _ => rfl, ?_, parse_move, ?_, ?_, ?_, ?_, ?_⟩ <;> simp [parse]
  | cons x rest =>
    refine ⟨fun h => absurd h (by simp), ?_, parse_move, ?_, ?_, ?_, ?_, ?_⟩
    · intro p1 p2
      constructor
      · intro h
        rw [parse_cons] at h
        split at h
        · rename_i hm
          simp only [Option.some.injEq, ASTNode.MoveNode.injEq] at h
          rw [move_shape hm, h.1, h.2]
        · split at h
          · simp at h
          · split at h <;> simp at h
      · intro h
        rw [h, parse_move]
    · rw [parse_cons]
      constructor
      · intro h
        split at h
        · simp at h
        · split at h
          · rename_i hu
            simp [hu]
          · split at h <;> simp at h
      · intro h
        have hx : x = "undo" := by simpa using h
        subst hx
        simp
    · rw [parse_cons]
      constructor
      · intro h
        split at h
        · simp at h
        · split at h
          · simp at h
          · split at h
            · rename_i hc
              simp [hc]
            · simp at h
      · intro h
        have hx : x = "check" := by simpa using h
        subst hx
        simp
    · exact parse_output_of_some (x :: rest)
    · intro _ hmove hundo hcheck
      rw [parse_cons]
      have h1 : ¬ (x = "move" ∧ rest.length = 4 ∧ rest.get? 0 = some "from"
          ∧ rest.get? 2 = some "to") := fun hm => hmove _ _ (move_shape hm)
      have h2 : ¬ x = "undo" := fun e => hundo (by simp [e])
      have h3 : ¬ x = "check" := fun e => hcheck (by simp [e])
      rw [if_neg h1, if_neg h2, if_neg h3]
    · intro hhead hlen
      have hx : x = "move" := by simpa using hhead
      subst hx
      rw [parse_cons]
      have h1 : ¬ ("move" = "move" ∧ rest.length = 4 ∧ rest.get? 0 = some "from"
          ∧ rest.get? 2 = some "to") := by
        rintro ⟨-, h4, -⟩
        simp only [List.length_cons] at hlen
        omega
      rw [if_neg h1, if_neg (by decide), if_neg (by decide)]

theorem isKingInCheck_returns (s : ChessBoard) (hK : ∃ i j : Fin 8, s.board i j = Piece.KING) :
    ∃ b, isKingInCheck s = some b := by
  obtain ⟨kr, kc, h1, h2⟩ := exists_last_king s.board hK
  exact ⟨_, isKingInCheck_of_last s kr kc h1 h2⟩

/-- C14: on a board with at least one King, a line whose tokens parse neither to a move nor
to an undo (an empty or comment-only line, an unrecognised line, or `check`) is interpreted
without any change to the grid or the history; what is printed is nothing, the message
`Invalid command!`, or one of the two answers of `check`. -/
theorem interpret_frame (board : ChessBoard) (line : String)
    (hK : ∃ i j : Fin 8, board.board i j = Piece.KING)
    (hmove : ∀ p1 p2, (parse (tokenize line)).1 ≠ some (ASTNode.MoveNode p1 p2))
    (hundo : (parse (tokenize line)).1 ≠ some ASTNode.UndoNode) :
    ∃ out, interpret line board = some (board, out)
      ∧ (out = "" ∨ out = "Invalid command!\n" ∨ out = "King is in check!\n"
          ∨ out = "King is safe.\n") := by
  unfold interpret
  cases hp : parse (tokenize line) with
  | mk node out =>
    rw [hp] at hmove hundo
    cases node with
    | none =>
      refine ⟨out, rfl, ?_⟩
      cases ht : tokenize line with
      | nil =>
        rw [ht, parse_nil] at hp
        exact Or.inl (Prod.mk.inj hp).2.symm
      | cons x rest =>
        rw [ht, parse_cons] at hp
        split at hp
        · simp at hp
        · split at hp
          · simp at hp
          · split at hp
            · simp at hp
            · exact Or.inr (Or.inl (Prod.mk.inj hp).2.symm)
    | some node =>
      have hout : out = "" := by
        have := parse_output_of_some (tokenize line) node (by rw [hp])
        rw [hp] at this
        exact this
      subst hout
      cases node with
      | MoveNode p1 p2 => exact absurd rfl (hmove p1 p2)
      | UndoNode => exact absurd rfl hundo
      | CheckNode =>
        obtain ⟨b, hb⟩ := isKingInCheck_returns board hK
        cases b with
        | true => exact ⟨_, by simp only [ASTNode.execute, hb]; rfl, by decide⟩
        | false => exact ⟨_, by simp only [ASTNode.execute, hb]; rfl, by decide⟩

/-- Witness of C14: the unrecognised line `foo bar` on the initial board. -/
theorem interpret_frame_witness :
    ∃ out, interpret "foo bar" ChessBoard.init = some (ChessBoard.init, out)
      ∧ (out = "" ∨ out = "Invalid command!\n" ∨ out = "King is in check!\n"
          ∨ out = "King is safe.\n") :=
  interpret_frame ChessBoard.init "foo bar" ⟨6, 3, by decide⟩
    (fun _ _ h => Option.noConfusion
      ((show (parse (tokenize "foo bar")).1 = none by decide).symm.trans h))
    (by decide)

/-! ## The position mapping -/

theorem position_of_cell (cell : Fin 8 × Fin 8) :
    isValidPosition (indicesToPosition cell) = true
      ∧ cellOf (indicesToPosition cell) = some cell := by
  revert cell
  decide

theorem valid_of_two_chars (q : String) (hlen : q.length = 2)
    (hin : 0 ≤ (positionToIndices q).1 ∧ (positionToIndices q).1 < 8
      ∧ 0 ≤ (positionToIndices q).2 ∧ (positionToIndices q).2 < 8) :
    isValidPosition q = true := by
  obtain ⟨l⟩ := q
  match l, hlen with
  | [f, r], _ =>
    rw [indices_mk] at hin
    simp only [code] at hin
    simp [isValidPosition, code]
    omega

/-- C15: for a valid position `p`, `positionToIndices` gives `(8 - rank digit, file - 'a')`,
both inside `0..7`, and converting the indices back (`file = 'a' + col`, `rank = 8 - row`)
gives `p`.  Conversely every one of the 64 cells comes from the valid position built from it,
so the mapping is a bijection between valid positions and cells; and a two-character string
whose two indices lie in `0..7` is a valid position. -/
theorem position_round_trip (p : String) (hp : isValidPosition p = true) :
    positionToIndices p = (8 - (charAt p 1 - code '0'), charAt p 0 - code 'a')
    ∧ (∃ cell : Fin 8 × Fin 8, cellOf p = some cell
        ∧ positionToIndices p = ((cell.1 : Int), (cell.2 : Int))
        ∧ indicesToPosition cell = p)
    ∧ (0 ≤ (positionToIndices p).1 ∧ (positionToIndices p).1 < 8
        ∧ 0 ≤ (positionToIndices p).2 ∧ (positionToIndices p).2 < 8)
    ∧ (∀ cell : Fin 8 × Fin 8, isValidPosition (indicesToPosition cell) = true
        ∧ cellOf (indicesToPosition cell) = some cell)
    ∧ (∀ q : String, isValidPosition q = true → cellOf q = cellOf p → q = p)
    ∧ Fintype.card (Fin 8 × Fin 8) = 64
    ∧ (∀ q : String, q.length = 2 →
        (0 ≤ (positionToIndices q).1 ∧ (positionToIndices q).1 < 8
          ∧ 0 ≤ (positionToIndices q).2 ∧ (positionToIndices q).2 < 8) →
        isValidPosition q = true) := by
  obtain ⟨cell, hcell⟩ := valid_cell hp
  have hidx : positionToIndices p = ((cell.1 : Int), (cell.2 : Int)) := by
    have := index_eq_some.1 hcell
    exact Prod.ext this.1.symm this.2.symm
  have h1 := cell.1.isLt
  have h2 := cell.2.isLt
  refine ⟨rfl, ⟨cell, hcell, hidx, ?_⟩, ?_, position_of_cell,
    fun q hq h => valid_cell_inj hq hp h, by decide, valid_of_two_chars⟩
  · exact valid_cell_inj (position_of_cell cell).1 hp
      ((position_of_cell cell).2.trans hcell.symm)
  · rw [hidx]
    simp only
    omega

/-- Witness of C15 at the position c1. -/
theorem position_round_trip_witness :
    ∃ cell : Fin 8 × Fin 8, cellOf "c1" = some cell
      ∧ positionToIndices "c1" = ((cell.1 : Int), (cell.2 : Int))
      ∧ indicesToPosition cell = "c1" :=
  (position_round_trip "c1" (by decide)).2.1

/-! ## Pieces are never created -/

theorem set_apply (g : Grid) (cell : Fin 8 × Fin 8) (p : Piece) (c : Fin 8 × Fin 8) :
    g.set cell p c.1 c.2 = if c = cell then p else g c.1 c.2 := by
  by_cases h : c = cell
  · rw [if_pos h, h, set_same]
  · rw [if_neg h, set_other _ _ _ _ _ (fun e => h (Prod.ext_iff.2 (Prod.ext_iff.1 e)))]

/-- Copying the content of `src` to `dst` and clearing `src`, as both `movePiece` and
`undoMove` do, never raises the number of cells satisfying a predicate that `EMPTY` fails. -/
theorem countCells_transfer (g : Grid) (src dst : Fin 8 × Fin 8) (P : Piece → Bool)
    (hP : P Piece.EMPTY = false) :
    countCells ((g.set dst (g src.1 src.2)).set src Piece.EMPTY) P ≤ countCells g P := by
  unfold countCells
  by_cases hsrc : P (g src.1 src.2) = true
  · have hmem : src ∈ Finset.univ.filter
        fun cell : Fin 8 × Fin 8 => P (g cell.1 cell.2) = true := by
      simp [hsrc]
    have hsub : (Finset.univ.filter fun cell : Fin 8 × Fin 8 =>
        P (((g.set dst (g src.1 src.2)).set src Piece.EMPTY) cell.1 cell.2) = true)
        ⊆ insert dst ((Finset.univ.filter
            fun cell : Fin 8 × Fin 8 => P (g cell.1 cell.2) = true).erase src) := by
      intro c hc
      simp only [Finset.mem_filter, Finset.mem_univ, true_and] at hc
      rw [set_apply] at hc
      by_cases h1 : c = src
      · rw [if_pos h1, hP] at hc
        exact absurd hc (by decide)
      · rw [if_neg h1, set_apply] at hc
        by_cases h2 : c = dst
        · exact Finset.mem_insert.2 (Or.inl h2)
        · rw [if_neg h2] at hc
          exact Finset.mem_insert.2 (Or.inr (Finset.mem_erase.2 ⟨h1, by simp [hc]⟩))
    have hpos : 0 < (Finset.univ.filter
        fun cell : Fin 8 × Fin 8 => P (g cell.1 cell.2) = true).card :=
      Finset.card_pos.2 ⟨src, hmem⟩
    have h1 := Finset.card_le_card hsub
    have h2 := Finset.card_insert_le dst ((Finset.univ.filter
      fun cell : Fin 8 × Fin 8 => P (g cell.1 cell.2) = true).erase src)
    rw [Finset.card_erase_of_mem hmem] at h2
    omega
  · refine Finset.card_le_card ?_
    intro c hc
    simp only [Finset.mem_filter, Finset.mem_univ, true_and] at hc ⊢
    rw [set_apply] at hc
    by_cases h1 : c = src
    · rw [if_pos h1, hP] at hc
      exact absurd hc (by decide)
    · rw [if_neg h1, set_apply] at hc
      by_cases h2 : c = dst
      · rw [if_pos h2] at hc
        exact absurd hc hsrc
      · rw [if_neg h2] at hc
        exact hc

/-- A `move` with valid positions returns, and its grid is the old one or a transfer. -/
theorem movePiece_valid (s : ChessBoard) (A B : String) (hA : isValidPosition A = true)
    (hB : isValidPosition B = true) :
    ∃ s1 out, movePiece s A B = some (s1, out)
      ∧ ((s1 = s) ∨ ∃ a b : Fin 8 × Fin 8,
          s1 = ⟨(s.board.set b (s.board a.1 a.2)).set a Piece.EMPTY,
            (A, B) :: s.moveHistory⟩) := by
  obtain ⟨a, ha⟩ := valid_cell hA
  obtain ⟨b, hb⟩ := valid_cell hB
  by_cases he : s.board a.1 a.2 = Piece.EMPTY
  · exact ⟨_, _, movePiece_empty B ha he, Or.inl rfl⟩
  · exact ⟨_, _, movePiece_cells ha hb he, Or.inr ⟨a, b, rfl⟩⟩

/-- An `undo` whose top record, if any, is valid returns, and its grid is the old one or a
transfer. -/
theorem undoMove_valid (s : ChessBoard)
    (hrec : ∀ r ∈ s.moveHistory, isValidPosition r.1 = true ∧ isValidPosition r.2 = true) :
    ∃ s1 out, undoMove s = some (s1, out)
      ∧ ((s1 = s) ∨ ∃ (a b : Fin 8 × Fin 8) (r : String × String) (rest : List (String × String)),
          s.moveHistory = r :: rest
          ∧ s1 = ⟨(s.board.set a (s.board b.1 b.2)).set b Piece.EMPTY, rest⟩) := by
  cases hh : s.moveHistory with
  | nil => exact ⟨_, _, undoMove_empty_hist hh, Or.inl rfl⟩
  | cons r rest =>
    obtain ⟨A, B⟩ := r
    have hv := hrec (A, B) (by rw [hh]; exact List.mem_cons_self _ _)
    obtain ⟨a, ha⟩ := valid_cell hv.1
    obtain ⟨b, hb⟩ := valid_cell hv.2
    exact ⟨_, _, undoMove_cells hh ha hb, Or.inr ⟨a, b, (A, B), rest, rfl, rfl⟩⟩

/-- C19: no command creates a piece.  A `move` with valid positions, and an `undo` whose top
record is valid or whose history is empty, return a state in which the number of non-empty
cells, and for every piece kind the number of cells holding that kind, is at most what it
was before. -/
theorem no_piece_created (s : ChessBoard) (A B : String)
    (hA : isValidPosition A = true) (hB : isValidPosition B = true) :
    (∃ s1 out, movePiece s A B = some (s1, out)
      ∧ countCells s1.board (fun p => p ≠ Piece.EMPTY)
          ≤ countCells s.board (fun p => p ≠ Piece.EMPTY)
      ∧ ∀ k, k ≠ Piece.EMPTY →
          countCells s1.board (fun p => p = k) ≤ countCells s.board (fun p => p = k))
    ∧ (∀ rest, s.moveHistory = (A, B) :: rest →
        ∃ s1 out, undoMove s = some (s1, out)
          ∧ countCells s1.board (fun p => p ≠ Piece.EMPTY)
              ≤ countCells s.board (fun p => p ≠ Piece.EMPTY)
          ∧ ∀ k, k ≠ Piece.EMPTY →
              countCells s1.board (fun p => p = k) ≤ countCells s.board (fun p => p = k))
    ∧ (s.moveHistory = [] →
        ∃ s1 out, undoMove s = some (s1, out)
          ∧ countCells s1.board (fun p => p ≠ Piece.EMPTY)
              ≤ countCells s.board (fun p => p ≠ Piece.EMPTY)
          ∧ ∀ k, k ≠ Piece.EMPTY →
              countCells s1.board (fun p => p = k) ≤ countCells s.board (fun p => p = k)) := by
  obtain ⟨a, ha⟩ := valid_cell hA
  obtain ⟨b, hb⟩ := valid_cell hB
  refine ⟨?_, ?_, ?_⟩
  · by_cases he : s.board a.1 a.2 = Piece.EMPTY
    · exact ⟨_, _, movePiece_empty B ha he, le_refl _, fun _ _ => le_refl _⟩
    · exact ⟨_, _, movePiece_cells ha hb he,
        countCells_transfer _ _ _ _ (by simp),
        fun k hk => countCells_transfer _ _ _ _ (by simpa using hk.symm)⟩
  · intro rest hh
    exact ⟨_, _, undoMove_cells hh ha hb,
      countCells_transfer _ _ _ _ (by simp),
      fun k hk => countCells_transfer _ _ _ _ (by simpa using hk.symm)⟩
  · intro hh
    exact ⟨_, _, undoMove_empty_hist hh, le_refl _, fun _ _ => le_refl _⟩

/-- Witness of C19 on the initial board with the positions c1 and d1. -/
theorem no_piece_created_witness :
    ∃ s1 out, movePiece ChessBoard.init "c1" "d1" = some (s1, out)
      ∧ countCells s1.board (fun p => p ≠ Piece.EMPTY)
          ≤ countCells ChessBoard.init.board (fun p => p ≠ Piece.EMPTY)
      ∧ ∀ k, k ≠ Piece.EMPTY →
          countCells s1.board (fun p => p = k)
            ≤ countCells ChessBoard.init.board (fun p => p = k) :=
  (no_piece_created ChessBoard.init "c1" "d1" (by decide) (by decide)).1

/-! ## Reachable states and the King -/

theorem execute_preserves (s : ChessBoard) (node : ASTNode)
    (hnode : isValidMoveOrUndo node = true)
    (hrec : ∀ r ∈ s.moveHistory, isValidPosition r.1 = true ∧ isValidPosition r.2 = true)
    (hking : countCells s.board (fun p => p = Piece.KING) ≤ 1) :
    ∃ s1 out, node.execute s = some (s1, out)
      ∧ (∀ r ∈ s1.moveHistory, isValidPosition r.1 = true ∧ isValidPosition r.2 = true)
      ∧ countCells s1.board (fun p => p = Piece.KING) ≤ 1 := by
  cases node with
  | MoveNode A B =>
    simp only [isValidMoveOrUndo, Bool.and_eq_true] at hnode
    obtain ⟨s1, out, hmv, hs1 | ⟨a, b, hs1⟩⟩ := movePiece_valid s A B hnode.1 hnode.2
    · exact ⟨s1, out, hmv, hs1 ▸ hrec, hs1 ▸ hking⟩
    · refine ⟨s1, out, hmv, ?_, ?_⟩
      · rw [hs1]
        intro r hr
        rcases List.mem_cons.1 hr with rfl | hr
        · exact hnode
        · exact hrec r hr
      · rw [hs1]
        exact le_trans (countCells_transfer _ _ _ _ (by decide)) hking
  | UndoNode =>
    obtain ⟨s1, out, hun, hs1 | ⟨a, b, r, rest, hh, hs1⟩⟩ := undoMove_valid s hrec
    · exact ⟨s1, out, hun, hs1 ▸ hrec, hs1 ▸ hking⟩
    · refine ⟨s1, out, hun, ?_, ?_⟩
      · rw [hs1]
        intro r1 hr1
        exact hrec r1 (by rw [hh]; exact List.mem_cons_of_mem _ hr1)
      · rw [hs1]
        exact le_trans (countCells_transfer _ _ _ _ (by decide)) hking
  | CheckNode => simp [isValidMoveOrUndo] at hnode

theorem runCommands_preserves : ∀ (cmds : List ASTNode) (s : ChessBoard),
    (∀ node ∈ cmds, isValidMoveOrUndo node = true) →
    (∀ r ∈ s.moveHistory, isValidPosition r.1 = true ∧ isValidPosition r.2 = true) →
    countCells s.board (fun p => p = Piece.KING) ≤ 1 →
    ∃ s1, runCommands cmds s = some s1
      ∧ countCells s1.board (fun p => p = Piece.KING) ≤ 1 := by
  intro cmds
  induction cmds with
  | nil => intro s _ _ hking; exact ⟨s, rfl, hking⟩
  | cons node rest ih =>
    intro s hcmds hrec hking
    obtain ⟨s1, out, hex, hrec1, hking1⟩ :=
      execute_preserves s node (hcmds node (List.mem_cons_self _ _)) hrec hking
    obtain ⟨s2, hrun, hking2⟩ :=
      ih s1 (fun n hn => hcmds n (List.mem_cons_of_mem _ hn)) hrec1 hking1
    refine ⟨s2, ?_, hking2⟩
    simp only [runCommands, hex]
    exact hrun

/-- C16 fails as stated: the single valid command `move from c1 to d2` puts the Queen on the
King's cell, and the state reached holds no King at all. -/
theorem king_can_be_lost :
    isValidMoveOrUndo (ASTNode.MoveNode "c1" "d2") = true
    ∧ ∃ s, runCommands [ASTNode.MoveNode "c1" "d2"] ChessBoard.init = some s
        ∧ (∀ i j : Fin 8, s.board i j ≠ Piece.KING)
        ∧ ¬ ∃ kr kc : Fin 8, s.board kr kc = Piece.KING
            ∧ ∀ i j : Fin 8, s.board i j = Piece.KING → i = kr ∧ j = kc := by
  refine ⟨by decide, _, rfl, by decide, ?_⟩
  rintro ⟨kr, kc, h, -⟩
  revert kr kc
  decide

/-- C16, amended: in every state reached from the initial board by a finite sequence of
`move` and `undo` commands with valid positions, every command returns and at most one
cell of the grid holds a King; the initial board holds exactly one. -/
theorem at_most_one_king (cmds : List ASTNode)
    (hcmds : ∀ node ∈ cmds, isValidMoveOrUndo node = true) :
    (∃ s, runCommands cmds ChessBoard.init = some s
      ∧ ∀ i j k l : Fin 8, s.board i j = Piece.KING → s.board k l = Piece.KING →
          i = k ∧ j = l)
    ∧ (ChessBoard.init.board 6 3 = Piece.KING
        ∧ ∀ i j : Fin 8, ChessBoard.init.board i j = Piece.KING → i = 6 ∧ j = 3) := by
  refine ⟨?_, by decide, by decide⟩
  obtain ⟨s, hrun, hking⟩ := runCommands_preserves cmds ChessBoard.init hcmds
    (by intro r hr; simp [ChessBoard.init] at hr) (by decide)
  refine ⟨s, hrun, ?_⟩
  intro i j k l h1 h2
  unfold countCells at hking
  have := Finset.card_le_one.1 hking (i, j) (by simp [h1]) (k, l) (by simp [h2])
  exact Prod.mk.inj this

/-- Witness of C16, amended: the Queen moves to d1 and the move is undone. -/
theorem at_most_one_king_witness :
    ∃ s, runCommands [ASTNode.MoveNode "c1" "d1", ASTNode.UndoNode] ChessBoard.init = some s
      ∧ ∀ i j k l : Fin 8, s.board i j = Piece.KING → s.board k l = Piece.KING →
          i = k ∧ j = l :=
  (at_most_one_king [ASTNode.MoveNode "c1" "d1", ASTNode.UndoNode] (by decide)).1

/-! ## The same-cell guard of the rank/file loop -/

theorem rankFileThreatNoGuard_iff (g : Grid) (a b : Fin 8) :
    rankFileThreatNoGuard g a b = true ↔
      (∃ j : Fin 8, g a j = Piece.QUEEN ∨ g a j = Piece.ROOK)
        ∨ (∃ i : Fin 8, g i b = Piece.QUEEN ∨ g i b = Piece.ROOK) := by
  unfold rankFileThreatNoGuard
  rw [any_range_eight]
  simp only [read_fin, Bool.or_eq_true, beq_iff_eq, Option.some.injEq]
  constructor
  · rintro ⟨i, h | h⟩
    · exact Or.inl ⟨i, h⟩
    · exact Or.inr ⟨i, h⟩
  · rintro (⟨i, h⟩ | ⟨i, h⟩)
    · exact ⟨i, Or.inl h⟩
    · exact ⟨i, Or.inr h⟩

theorem rankFileThreatBothGuards_iff (g : Grid) (a b : Fin 8) :
    rankFileThreatBothGuards g a b = true ↔
      (∃ j : Fin 8, (g a j = Piece.QUEEN ∧ j ≠ b) ∨ (g a j = Piece.ROOK ∧ j ≠ b))
        ∨ (∃ i : Fin 8, (g i b = Piece.QUEEN ∧ i ≠ a) ∨ (g i b = Piece.ROOK ∧ i ≠ a)) := by
  unfold rankFileThreatBothGuards
  rw [any_range_eight]
  simp only [read_fin, Bool.or_eq_true, Bool.and_eq_true, beq_iff_eq, bne_iff_ne, ne_eq,
    Option.some.injEq, Nat.cast_inj, Fin.val_inj]
  constructor
  · rintro ⟨i, h | h⟩
    · exact Or.inl ⟨i, h⟩
    · exact Or.inr ⟨i, h⟩
  · rintro (⟨i, h⟩ | ⟨i, h⟩)
    · exact ⟨i, Or.inl h⟩
    · exact ⟨i, Or.inr h⟩

theorem guard_redundant {g : Grid} {a b i j : Fin 8} {p : Piece} (hK : g a b = Piece.KING)
    (hp : p ≠ Piece.KING) (h : g i j = p) : ¬ (i = a ∧ j = b) := by
  rintro ⟨rfl, rfl⟩
  exact hp (h.symm.trans hK)

theorem rankFile_variants (g : Grid) (a b : Fin 8) (hK : g a b = Piece.KING) :
    rankFileThreatNoGuard g a b = rankFileThreat g a b
      ∧ rankFileThreatBothGuards g a b = rankFileThreat g a b := by
  have hq : Piece.QUEEN ≠ Piece.KING := by decide
  have hr : Piece.ROOK ≠ Piece.KING := by decide
  constructor
  · rw [Bool.eq_iff_iff, rankFileThreatNoGuard_iff, rankFileThreat_iff]
    refine or_congr (exists_congr fun j => or_congr Iff.rfl ?_)
      (exists_congr fun i => or_congr Iff.rfl ?_)
    · exact ⟨fun h => ⟨h, fun e => guard_redundant hK hr h ⟨rfl, e⟩⟩, fun h => h.1⟩
    · exact ⟨fun h => ⟨h, fun e => guard_redundant hK hr h ⟨e, rfl⟩⟩, fun h => h.1⟩
  · rw [Bool.eq_iff_iff, rankFileThreatBothGuards_iff, rankFileThreat_iff]
    refine or_congr (exists_congr fun j => or_congr ?_ Iff.rfl)
      (exists_congr fun i => or_congr ?_ Iff.rfl)
    · exact ⟨fun h => h.1, fun h => ⟨h, fun e => guard_redundant hK hq h ⟨rfl, e⟩⟩⟩
    · exact ⟨fun h => h.1, fun h => ⟨h, fun e => guard_redundant hK hq h ⟨e, rfl⟩⟩⟩

/-- C17: on a board with at least one King, `isKingInCheck()` returns a value, and that value
is also the one returned by the variant whose Rook tests have lost the guards
`i != kingCol`, `i != kingRow`, and by the variant whose Queen tests have the guards too. -/
theorem guard_has_no_effect (s : ChessBoard)
    (hK : ∃ i j : Fin 8, s.board i j = Piece.KING) :
    isKingInCheckWith rankFileThreat s = isKingInCheck s
    ∧ (∃ b, isKingInCheck s = some b)
    ∧ isKingInCheck s = isKingInCheckWith rankFileThreatNoGuard s
    ∧ isKingInCheck s = isKingInCheckWith rankFileThreatBothGuards s := by
  obtain ⟨kr, kc, h1, h2⟩ := exists_last_king s.board hK
  have hf := findKing_last s.board kr kc h1 h2
  have hv := rankFile_variants s.board kr kc h1
  refine ⟨rfl, isKingInCheck_returns s hK, ?_, ?_⟩
  · unfold isKingInCheck isKingInCheckWith
    rw [hf]
    simp only [threatTests, hv.1]
  · unfold isKingInCheck isKingInCheckWith
    rw [hf]
    simp only [threatTests, hv.2]

/-- Witness of C17 on the initial board. -/
theorem guard_has_no_effect_witness :
    isKingInCheck ChessBoard.init = isKingInCheckWith rankFileThreatNoGuard ChessBoard.init
    ∧ isKingInCheck ChessBoard.init
        = isKingInCheckWith rankFileThreatBothGuards ChessBoard.init :=
  (guard_has_no_effect ChessBoard.init ⟨6, 3, by decide⟩).2.2

/-! ## Limits of undo -/

/-- C18: for pairwise distinct valid positions A, B, C with A and C occupied, the sequence
`movePiece(A, B)`, `movePiece(C, B)`, `undoMove()`, `undoMove()` returns at every step; at the
end the history is the original one and C holds its original piece, but A and B are both
`EMPTY`, so the grid differs from the original: the piece that started on A is lost. -/
theorem double_move_undo_loses_piece (s : ChessBoard) (A B C : String)
    (hA : isValidPosition A = true) (hB : isValidPosition B = true)
    (hC : isValidPosition C = true) (hAB : A ≠ B) (hAC : A ≠ C) (hBC : B ≠ C)
    (hoccA : pieceAt s A ≠ some Piece.EMPTY) (hoccC : pieceAt s C ≠ some Piece.EMPTY) :
    ∃ s1 out1 s2 out2 s3 out3 s4 out4,
      movePiece s A B = some (s1, out1) ∧ movePiece s1 C B = some (s2, out2)
      ∧ undoMove s2 = some (s3, out3) ∧ undoMove s3 = some (s4, out4)
      ∧ s4.moveHistory = s.moveHistory
      ∧ pieceAt s4 C = pieceAt s C
      ∧ pieceAt s4 A = some Piece.EMPTY ∧ pieceAt s4 B = some Piece.EMPTY
      ∧ pieceAt s4 A ≠ pieceAt s A
      ∧ s4.board ≠ s.board := by
  obtain ⟨a, ha⟩ := valid_cell hA
  obtain ⟨b, hb⟩ := valid_cell hB
  obtain ⟨c, hc⟩ := valid_cell hC
  have hab : a ≠ b := fun e => hAB (valid_cell_inj hA hB (by rw [ha, hb, e]))
  have hac : a ≠ c := fun e => hAC (valid_cell_inj hA hC (by rw [ha, hc, e]))
  have hbc : b ≠ c := fun e => hBC (valid_cell_inj hB hC (by rw [hb, hc, e]))
  have hba : b ≠ a := fun e => hab e.symm
  have hca : c ≠ a := fun e => hac e.symm
  have hcb : c ≠ b := fun e => hbc e.symm
  rw [pieceAt_of_cell ha] at hoccA
  rw [pieceAt_of_cell hc] at hoccC
  have hna : s.board a.1 a.2 ≠ Piece.EMPTY := fun e => hoccA (by rw [e])
  have hnc : s.board c.1 c.2 ≠ Piece.EMPTY := fun e => hoccC (by rw [e])
  have h1 := movePiece_cells (s := s) ha hb hna
  have hc1 : ((s.board.set b (s.board a.1 a.2)).set a Piece.EMPTY) c.1 c.2
      = s.board c.1 c.2 := by
    rw [set_apply, if_neg hca, set_apply, if_neg hcb]
  have h2 := movePiece_cells
    (s := ⟨(s.board.set b (s.board a.1 a.2)).set a Piece.EMPTY, (A, B) :: s.moveHistory⟩)
    hc hb (fun e => hnc (hc1.symm.trans e))
  refine ⟨_, _, _, _, _, _, _, _, h1, h2, undoMove_cells rfl hc hb, undoMove_cells rfl ha hb,
    rfl, ?_, ?_, ?_, ?_, ?_⟩
  · rw [pieceAt_of_cell hc, pieceAt_of_cell hc]
    simp only [set_apply, hca, hcb, hab, hba, hac, hbc, if_true, if_false]
  · rw [pieceAt_of_cell ha]
    simp only [set_apply, hca, hcb, hab, hba, hac, hbc, if_true, if_false]
  · rw [pieceAt_of_cell hb]
    simp only [set_apply, hca, hcb, hab, hba, hac, hbc, if_true, if_false]
  · rw [pieceAt_of_cell ha, pieceAt_of_cell ha]
    simp only [set_apply, hca, hcb, hab, hba, hac, hbc, if_true, if_false]
    exact fun e => hna (Option.some.inj e).symm
  · intro e
    have := congrFun (congrFun e a.1) a.2
    simp only [set_apply, hca, hcb, hab, hba, hac, hbc, if_true, if_false] at this
    exact hna this.symm

/-- Witness of C18 on the board with two Kings and a Knight: a8 and h1 both go to a1. -/
theorem double_move_undo_loses_piece_witness :
    ∃ s1 out1 s2 out2 s3 out3 s4 out4,
      movePiece twoKings "a8" "a1" = some (s1, out1) ∧ movePiece s1 "h1" "a1" = some (s2, out2)
      ∧ undoMove s2 = some (s3, out3) ∧ undoMove s3 = some (s4, out4)
      ∧ s4.moveHistory = twoKings.moveHistory
      ∧ pieceAt s4 "h1" = pieceAt twoKings "h1"
      ∧ pieceAt s4 "a8" = some Piece.EMPTY ∧ pieceAt s4 "a1" = some Piece.EMPTY
      ∧ pieceAt s4 "a8" ≠ pieceAt twoKings "a8"
      ∧ s4.board ≠ twoKings.board :=
  double_move_undo_loses_piece twoKings "a8" "a1" "h1" (by decide) (by decide) (by decide)
    (by decide) (by decide) (by decide) (by decide) (by decide)

/-- C20: for a valid position A with a non-empty cell, `movePiece(A, A)` leaves A `EMPTY`,
changes no other cell and pushes the record (A, A); the following `undoMove()` pops that
record and leaves A `EMPTY` and the other cells as they were, so the piece is not
restored. -/
theorem self_move_destroys_piece (s : ChessBoard) (A : String)
    (hA : isValidPosition A = true) (hocc : pieceAt s A ≠ some Piece.EMPTY) :
    ∃ s1 s2, movePiece s A A = some (s1, "Moved from " ++ A ++ " to " ++ A ++ "\n")
      ∧ pieceAt s1 A = some Piece.EMPTY
      ∧ (∀ i j, some (i, j) ≠ cellOf A → s1.board i j = s.board i j)
      ∧ s1.moveHistory = (A, A) :: s.moveHistory
      ∧ undoMove s1 = some (s2, "Undid move from " ++ A ++ " back to " ++ A ++ "\n")
      ∧ s2.moveHistory = s.moveHistory
      ∧ pieceAt s2 A = some Piece.EMPTY
      ∧ (∀ i j, some (i, j) ≠ cellOf A → s2.board i j = s.board i j)
      ∧ pieceAt s2 A ≠ pieceAt s A := by
  obtain ⟨a, ha⟩ := valid_cell hA
  rw [pieceAt_of_cell ha] at hocc
  have hna : s.board a.1 a.2 ≠ Piece.EMPTY := fun e => hocc (by rw [e])
  have h1 := movePiece_cells (s := s) ha ha hna
  refine ⟨_, _, h1, ?_, ?_, rfl, undoMove_cells rfl ha ha, rfl, ?_, ?_, ?_⟩
  · rw [pieceAt_of_cell ha]
    simp only [set_apply, if_true]
  · intro i j hne
    have hij : (i, j) ≠ a := fun e => hne (by rw [ha, e])
    simp only [set_other _ _ _ _ _ hij]
  · rw [pieceAt_of_cell ha]
    simp only [set_apply, if_true]
  · intro i j hne
    have hij : (i, j) ≠ a := fun e => hne (by rw [ha, e])
    simp only [set_other _ _ _ _ _ hij]
  · rw [pieceAt_of_cell ha, pieceAt_of_cell ha]
    simp only [set_apply, if_true]
    exact fun e => hna (Option.some.inj e).symm

/-- Witness of C20 on the initial board: the King moves from d2 to d2. -/
theorem self_move_destroys_piece_witness :
    ∃ s1 s2, movePiece ChessBoard.init "d2" "d2"
        = some (s1, "Moved from " ++ "d2" ++ " to " ++ "d2" ++ "\n")
      ∧ pieceAt s1 "d2" = some Piece.EMPTY
      ∧ (∀ i j, some (i, j) ≠ cellOf "d2" → s1.board i j = ChessBoard.init.board i j)
      ∧ s1.moveHistory = ("d2", "d2") :: ChessBoard.init.moveHistory
      ∧ undoMove s1 = some (s2, "Undid move from " ++ "d2" ++ " back to " ++ "d2" ++ "\n")
      ∧ s2.moveHistory = ChessBoard.init.moveHistory
      ∧ pieceAt s2 "d2" = some Piece.EMPTY
      ∧ (∀ i j, some (i, j) ≠ cellOf "d2" → s2.board i j = ChessBoard.init.board i j)
      ∧ pieceAt s2 "d2" ≠ pieceAt ChessBoard.init "d2" :=
  self_move_destroys_piece ChessBoard.init "d2" (by decide) (by decide)

end ChessLang
